import Mathlib

/-!
# Verification of the hijacknet lobby/rendezvous core

A shallow embedding of `src/hijacknet/__init__.py`: the line-oriented JSON
message framing (`HijackClient.send_message` / `read_message`), lobby
membership (`HijackLobby`), and the server's per-connection handling
(`HijackServer._handle_client`), together with proofs of the specified
properties.

Python values of the `Jsonable` type alias are modelled by the inductive
`Jsonable` below.  Numbers are modelled by arbitrary-precision integers
(Python `int`); `float` payloads are outside the scope of this embedding.
The standard-library `json.dumps(msg, separators=(',', ':'))` /
`json.loads` calls are modelled from the spec's Framing Codec description
("a canonical compact serialized form") by the executable encoder `dumps`
and the fuelled recursive-descent decoder `json_loads` below, which mirror
Python's observable behaviour on the modelled value type (string escaping,
insertion-ordered objects with last-wins duplicate keys, whitespace
tolerance around tokens; lone surrogate escapes — unrepresentable in Lean
strings — are modelled as decode failures).
-/

/-- Python's `Jsonable = Union[dict[str, Jsonable], list[Jsonable], str, int,
float, bool, None]`, with numbers restricted to `int`. -/
inductive Jsonable where
  | obj : List (String × Jsonable) → Jsonable
  | arr : List Jsonable → Jsonable
  | str : String → Jsonable
  | num : Int → Jsonable
  | bool : Bool → Jsonable
  | null : Jsonable

/-! ## Characters and digits -/

/-- The whitespace characters skipped by Python's JSON decoder. -/
def isWsChar (c : Char) : Bool :=
  c = ' ' || c = '\t' || c = '\n' || c = '\r'

/-- Drop leading JSON whitespace. -/
def skipWs : List Char → List Char
  | [] => []
  | c :: r => if isWsChar c then skipWs r else c :: r

/-- The decimal digit character for `d < 10`. -/
def digitChar (d : Nat) : Char := Char.ofNat (48 + d)

/-- Little-endian decimal digits of `n`, with explicit fuel (any
`fuel ≥ n` is enough). -/
def natDigitsRev : Nat → Nat → List Nat
  | 0, _ => []
  | fuel + 1, n => if n = 0 then [] else n % 10 :: natDigitsRev fuel (n / 10)

/-- Decimal text of a natural number, as Python's `str` would print it. -/
def natToChars (n : Nat) : List Char :=
  if n = 0 then ['0'] else ((natDigitsRev n n).map digitChar).reverse

/-- Decimal text of a Python `int`. -/
def intToChars : Int → List Char
  | .ofNat n => natToChars n
  | .negSucc m => '-' :: natToChars (m + 1)

/-- Lower-case hex digit character for `d < 16`. -/
def hexChar (d : Nat) : Char :=
  if d < 10 then Char.ofNat (48 + d) else Char.ofNat (87 + d)

/-- Hex digit value of a character, as accepted by JSON `\uXXXX` escapes. -/
def hexVal (c : Char) : Option Nat :=
  if 48 ≤ c.toNat ∧ c.toNat ≤ 57 then some (c.toNat - 48)
  else if 97 ≤ c.toNat ∧ c.toNat ≤ 102 then some (c.toNat - 87)
  else if 65 ≤ c.toNat ∧ c.toNat ≤ 70 then some (c.toNat - 55)
  else none

/-! ## Encoding (json.dumps with compact separators) -/

/-- Escape one character of a JSON string the way `json.dumps` does. -/
def escChar (c : Char) : List Char :=
  if c = '"' then ['\\', '"']
  else if c = '\\' then ['\\', '\\']
  else if c = '\n' then ['\\', 'n']
  else if c = '\r' then ['\\', 'r']
  else if c = '\t' then ['\\', 't']
  else if c.toNat = 8 then ['\\', 'b']
  else if c.toNat = 12 then ['\\', 'f']
  else if c.toNat < 32 then ['\\', 'u', '0', '0', hexChar (c.toNat / 16), hexChar (c.toNat % 16)]
  else [c]

/-- Escape a whole string body. -/
def escStr : List Char → List Char
  | [] => []
  | c :: cs => escChar c ++ escStr cs

mutual
/-- The canonical compact serialized form of a message:
`json.dumps(msg, separators=(',', ':'))`. -/
def dumps : Jsonable → List Char
  | .obj kvs => '{' :: dumpsObj kvs ++ ['}']
  | .arr xs => '[' :: dumpsArr xs ++ [']']
  | .str s => '"' :: escStr s.data ++ ['"']
  | .num i => intToChars i
  | .bool true => ['t', 'r', 'u', 'e']
  | .bool false => ['f', 'a', 'l', 's', 'e']
  | .null => ['n', 'u', 'l', 'l']

/-- Comma-separated serialized array items. -/
def dumpsArr : List Jsonable → List Char
  | [] => []
  | [x] => dumps x
  | x :: y :: rest => dumps x ++ ',' :: dumpsArr (y :: rest)

/-- Comma-separated serialized object members, each `"key":value`. -/
def dumpsObj : List (String × Jsonable) → List Char
  | [] => []
  | [(k, v)] => '"' :: escStr k.data ++ '"' :: ':' :: dumps v
  | (k, v) :: p :: rest =>
    ('"' :: escStr k.data ++ '"' :: ':' :: dumps v) ++ ',' :: dumpsObj (p :: rest)
end

/-- One serialized `"key":value` member (unfolding of `dumpsObj`). -/
def dumpsKV (k : String) (v : Jsonable) : List Char :=
  '"' :: escStr k.data ++ '"' :: ':' :: dumps v

/-- `k` does not occur as a key of `l`. -/
def keyAbsent (k : String) : List (String × Jsonable) → Bool
  | [] => true
  | (k', _) :: rest => !(k' == k) && keyAbsent k rest

mutual
/-- Well-formedness of a modelled value as the image of a Python value:
every object has pairwise distinct keys (Python dicts cannot hold
duplicates). -/
def wfJson : Jsonable → Bool
  | .obj kvs => wfObj kvs
  | .arr xs => wfArr xs
  | .str _ => true
  | .num _ => true
  | .bool _ => true
  | .null => true

/-- All array elements well-formed. -/
def wfArr : List Jsonable → Bool
  | [] => true
  | x :: xs => wfJson x && wfArr xs

/-- Keys pairwise distinct and all values well-formed. -/
def wfObj : List (String × Jsonable) → Bool
  | [] => true
  | (k, v) :: rest => keyAbsent k rest && wfJson v && wfObj rest
end

/-! ## Decoding (json.loads) -/

/-- Python `dict` update on an insertion-ordered association list: an
existing key keeps its position and gets the new value, a fresh key is
appended. -/
def assocSet (l : List (String × Jsonable)) (k : String) (v : Jsonable) :
    List (String × Jsonable) :=
  if l.any (fun p => p.1 == k) then
    l.map (fun p => if p.1 == k then (k, v) else p)
  else l ++ [(k, v)]

/-- Unescape a single-character JSON escape. -/
def escUn (e : Char) : Option Char :=
  if e = '"' then some '"'
  else if e = '\\' then some '\\'
  else if e = '/' then some '/'
  else if e = 'n' then some '\n'
  else if e = 'r' then some '\r'
  else if e = 't' then some '\t'
  else if e = 'b' then some (Char.ofNat 8)
  else if e = 'f' then some (Char.ofNat 12)
  else none

mutual
/-- Parse a JSON string body (the opening quote already consumed),
returning the decoded characters and the rest of the input.  `\uXXXX`
escapes denoting surrogates are modelled as failures. -/
def parseStrBody : List Char → Option (List Char × List Char)
  | [] => none
  | c :: r =>
    if c = '"' then some ([], r)
    else if c = '\\' then parseStrEsc r
    else
      match parseStrBody r with
      | some (cs, rest) => some (c :: cs, rest)
      | none => none

/-- Parse the remainder of a string body after a backslash. -/
def parseStrEsc : List Char → Option (List Char × List Char)
  | [] => none
  | e :: r2 =>
    if e = 'u' then parseStrU r2
    else
      match escUn e with
      | some c' =>
        match parseStrBody r2 with
        | some (cs, rest) => some (c' :: cs, rest)
        | none => none
      | none => none

/-- Parse the remainder of a string body after a `\u` escape prefix. -/
def parseStrU : List Char → Option (List Char × List Char)
  | a :: b :: c2 :: d :: r3 =>
    match hexVal a, hexVal b, hexVal c2, hexVal d with
    | some x, some y, some z, some w =>
      if ((x * 16 + y) * 16 + z) * 16 + w < 0xd800 then
        match parseStrBody r3 with
        | some (cs, rest) => some (Char.ofNat (((x * 16 + y) * 16 + z) * 16 + w) :: cs, rest)
        | none => none
      else if ((x * 16 + y) * 16 + z) * 16 + w < 0xe000 then none
      else
        match parseStrBody r3 with
        | some (cs, rest) => some (Char.ofNat (((x * 16 + y) * 16 + z) * 16 + w) :: cs, rest)
        | none => none
    | _, _, _, _ => none
  | _ => none
end

/-- Take the maximal leading run of decimal digits. -/
def spanDigits : List Char → List Char × List Char
  | [] => ([], [])
  | c :: r =>
    if c.isDigit then
      let (ds, rest) := spanDigits r
      (c :: ds, rest)
    else ([], c :: r)

/-- Accumulate the decimal value of a digit run. -/
def digitsVal : List Char → Nat → Nat
  | [], acc => acc
  | c :: r, acc => digitsVal r (acc * 10 + (c.toNat - 48))

/-- Parse an integer literal (optional minus sign and digits). -/
def parseNum : List Char → Option (Int × List Char)
  | [] => none
  | c :: r =>
    if c = '-' then
      let p := spanDigits r
      if p.1.isEmpty then none else some (-(digitsVal p.1 0 : Int), p.2)
    else
      let p := spanDigits (c :: r)
      if p.1.isEmpty then none else some ((digitsVal p.1 0 : Int), p.2)

mutual
/-- Recursive-descent JSON value parser.  The fuel only enforces
termination; `2 * length + 2` is always sufficient. -/
def parseVal : Nat → List Char → Option (Jsonable × List Char)
  | 0, _ => none
  | fuel + 1, s =>
    match s with
    | [] => none
    | c :: r =>
      if c = '{' then
        match skipWs r with
        | [] => none
        | c2 :: r2 =>
          if c2 = '}' then some (.obj [], r2) else parseMembers fuel (c2 :: r2) []
      else if c = '[' then
        match skipWs r with
        | [] => none
        | c2 :: r2 =>
          if c2 = ']' then some (.arr [], r2) else parseItems fuel (c2 :: r2) []
      else if c = '"' then
        match parseStrBody r with
        | some (cs, rest) => some (.str ⟨cs⟩, rest)
        | none => none
      else if c = 't' then
        match r with
        | 'r' :: 'u' :: 'e' :: rest => some (.bool true, rest)
        | _ => none
      else if c = 'f' then
        match r with
        | 'a' :: 'l' :: 's' :: 'e' :: rest => some (.bool false, rest)
        | _ => none
      else if c = 'n' then
        match r with
        | 'u' :: 'l' :: 'l' :: rest => some (.null, rest)
        | _ => none
      else
        match parseNum (c :: r) with
        | some (i, rest) => some (.num i, rest)
        | none => none

/-- Parse the items of a non-empty array, accumulating in order. -/
def parseItems : Nat → List Char → List Jsonable → Option (Jsonable × List Char)
  | 0, _, _ => none
  | fuel + 1, s, acc =>
    match parseVal fuel s with
    | none => none
    | some (v, rest) =>
      match skipWs rest with
      | [] => none
      | c2 :: r2 =>
        if c2 = ',' then parseItems fuel (skipWs r2) (acc ++ [v])
        else if c2 = ']' then some (.arr (acc ++ [v]), r2)
        else none

/-- Parse the members of a non-empty object, accumulating with Python
dict-update semantics. -/
def parseMembers : Nat → List Char → List (String × Jsonable) →
    Option (Jsonable × List Char)
  | 0, _, _ => none
  | fuel + 1, s, acc =>
    match s with
    | [] => none
    | c :: r =>
      if c = '"' then
        match parseStrBody r with
        | none => none
        | some (kcs, r2) =>
          match skipWs r2 with
          | [] => none
          | c3 :: r3 =>
            if c3 = ':' then
              match parseVal fuel (skipWs r3) with
              | none => none
              | some (v, rest) =>
                match skipWs rest with
                | [] => none
                | c4 :: r4 =>
                  if c4 = ',' then parseMembers fuel (skipWs r4) (assocSet acc ⟨kcs⟩ v)
                  else if c4 = '}' then some (.obj (assocSet acc ⟨kcs⟩ v), r4)
                  else none
            else none
      else none
end

/-- `json.loads` on one line of text: parse a single value, tolerating
surrounding whitespace, and fail on trailing garbage. -/
def json_loads (s : List Char) : Option Jsonable :=
  match parseVal (2 * s.length + 2) (skipWs s) with
  | some (v, rest) => if (skipWs rest).isEmpty then some v else none
  | none => none

/-- The input does not begin with a decimal digit, so that a printed
number directly followed by it cannot be over-consumed. -/
def noDigitStart (s : List Char) : Prop :=
  ∀ c, s.head? = some c → c.isDigit = false

/-! ## Errors raised by the modelled Python code -/

/-- The failure modes of the core, named after the spec's taxonomy where one
exists: `jsonDecodeError` is `MalformedMessage`, `payloadNewline` is
`InvalidPayload`, `duplicateMember` is `DuplicateMember`; `typeError` and
`keyError` are the exceptions Python raises when subscripting non-objects or
missing keys during the handshake. -/
inductive PyError where
  | jsonDecodeError
  | typeError
  | keyError
  | duplicateMember
  | payloadNewline
  | startedTwice
  | runnerError
  | closeError
deriving DecidableEq

/-! ## Connection (HijackClient) -/

/-- A server-side connection: `_metadata` is the identity value read at the
handshake (JSON null both for a literal `null` line and for a closed stream,
exactly as in Python where `None` plays both roles); `_starting_metadata`
stays `none` until the lobby starts; `written` is the byte stream written so
far. -/
structure HijackClient where
  metadata : Jsonable
  startingMetadata : Option Jsonable
  written : List Char

/-- Python `d[k]` for a string key: `TypeError` when `d` is not an object,
`KeyError` when the key is missing. -/
def getItem : Jsonable → String → Except PyError Jsonable
  | .obj kvs, k =>
    match kvs.find? (fun p => p.1 == k) with
    | some p => .ok p.2
    | none => .error .keyError
  | _, _ => .error .typeError

/-- `HijackClient.name` (`self._metadata["name"]`). -/
def clientName (c : HijackClient) : Except PyError Jsonable :=
  getItem c.metadata "name"

/-- `HijackClient.lobby` (`self._metadata["lobby"]`). -/
def clientLobby (c : HijackClient) : Except PyError Jsonable :=
  getItem c.metadata "lobby"

/-- `StreamReader.readline`: split off the first line (including its
terminator when present; at end-of-input the unterminated remainder). -/
def readline : List Char → List Char × List Char
  | [] => ([], [])
  | c :: r =>
    if c = '\n' then ([c], r)
    else
      let p := readline r
      (c :: p.1, p.2)

/-- `HijackClient._read_message_raw`: `None` unless a full
terminator-ended line was read. -/
def read_message_raw (stream : List Char) : Option (List Char) × List Char :=
  let p := readline stream
  if p.1.getLast? = some '\n' then (some p.1, p.2) else (none, p.2)

/-- `HijackClient.read_message`: decode one full line with `json.loads`;
the Python `None` returned on a closed stream is the JSON null value, so a
`"null"` line and end-of-input produce the same result.  Returns the value
together with the rest of the stream. -/
def read_message (stream : List Char) : Except PyError (Jsonable × List Char) :=
  match read_message_raw stream with
  | (none, rest) => .ok (.null, rest)
  | (some line, rest) =>
    match json_loads line with
    | some m => .ok (m, rest)
    | none => .error .jsonDecodeError

/-- `HijackClient._send_message_raw`: refuse payloads containing the line
terminator before writing anything; otherwise append the payload followed by
exactly one terminator. -/
def send_message_raw (written : List Char) (plod : List Char) :
    Except PyError Unit × List Char :=
  if '\n' ∈ plod then (.error .payloadNewline, written)
  else (.ok (), written ++ plod ++ ['\n'])

/-- `HijackClient.send_message`: serialize with the compact separators, then
send the line. -/
def send_message (written : List Char) (msg : Jsonable) :
    Except PyError Unit × List Char :=
  send_message_raw written (dumps msg)

/-- The starting-roster message `{"state": "starting", "others": others}`. -/
def startingMsg (others : List Jsonable) : Jsonable :=
  .obj [("state", .str "starting"), ("others", .arr others)]

/-- `HijackClient.send_starting_metadata`: refuse a second call, otherwise
record the starting metadata and send it. -/
def send_starting_metadata (c : HijackClient) (others : List Jsonable) :
    Except PyError (HijackClient × Jsonable) :=
  match c.startingMetadata with
  | some _ => .error .startedTwice
  | none =>
    match send_message c.written (startingMsg others) with
    | (.error e, _) => .error e
    | (.ok (), w) =>
      .ok ({ c with startingMetadata := some (startingMsg others), written := w },
        startingMsg others)

/-! ## Lobby (HijackLobby) -/

/-- Python `==` on values usable as dict keys (hashable scalars), mirroring
`True == 1` and `False == 0`; containers are rejected as unhashable before
any comparison, so the catch-all is never consulted by the model. -/
def pyKeyEq : Jsonable → Jsonable → Bool
  | .bool a, .bool b => a == b
  | .bool a, .num n => (if a then (1 : Int) else 0) == n
  | .num n, .bool b => n == (if b then (1 : Int) else 0)
  | .num a, .num b => a == b
  | .str a, .str b => a == b
  | .null, .null => true
  | _, _ => false

/-- Python hashability of a modelled value: dicts and lists cannot be used
as dict keys. -/
def hashable : Jsonable → Bool
  | .obj _ => false
  | .arr _ => false
  | _ => true

/-- A lobby: its id and the insertion-ordered mapping `_members` from
declared name to connection. -/
structure HijackLobby where
  lobby_id : Jsonable
  members : List (Jsonable × HijackClient)

/-- `HijackLobby.__init__`: an empty membership mapping. -/
def lobbyInit (lobby_id : Jsonable) : HijackLobby := ⟨lobby_id, []⟩

/-- `HijackLobby.add_remote`: evaluating `remote.name` can raise; an
unhashable name makes the `in` test raise `TypeError`; an existing name
raises `DuplicateMember`; otherwise the member is appended.  The lobby is
returned exactly as the call leaves it. -/
def add_remote (lobby : HijackLobby) (remote : HijackClient) :
    Except PyError Unit × HijackLobby :=
  match clientName remote with
  | .error e => (.error e, lobby)
  | .ok n =>
    if hashable n = false then (.error .typeError, lobby)
    else if lobby.members.any (fun p => pyKeyEq p.1 n) then
      (.error .duplicateMember, lobby)
    else (.ok (), { lobby with members := lobby.members ++ [(n, remote)] })

/-- Python `==` between a `HijackClient` instance and a stored member key:
always `False`, because `HijackClient` has default identity equality and the
keys are JSON values (strings in well-formed traffic), never client
instances. -/
def clientEqKey (_ : HijackClient) (_ : Jsonable) : Bool := false

/-- `HijackLobby.__contains__`: accepts a name or a connection object; for a
connection it computes (and discards) `excluded = item.name`, then tests the
item itself for membership among the keys. -/
def lobbyContains (lobby : HijackLobby) (item : Sum Jsonable HijackClient) :
    Except PyError Bool :=
  match item with
  | .inr c =>
    match clientName c with
    | .error e => .error e
    | .ok _ => .ok (lobby.members.any (fun p => clientEqKey c p.1))
  | .inl j =>
    if hashable j = false then .error .typeError
    else .ok (lobby.members.any (fun p => pyKeyEq p.1 j))

/-- `HijackLobby.get_other_members` with the excluded name already
extracted: keep every member whose `name` attribute differs from it,
evaluating `i.name` member by member as the filter does. -/
def get_other_members : List (Jsonable × HijackClient) → Jsonable →
    Except PyError (List HijackClient)
  | [], _ => .ok []
  | (_, r) :: rest, excluded =>
    match clientName r with
    | .error e => .error e
    | .ok n =>
      match get_other_members rest excluded with
      | .error e => .error e
      | .ok tl => .ok (if pyKeyEq n excluded then tl else r :: tl)

/-- `list(i.name for i in others)`. -/
def memberNames : List HijackClient → Except PyError (List Jsonable)
  | [] => .ok []
  | r :: rest =>
    match clientName r with
    | .error e => .error e
    | .ok n =>
      match memberNames rest with
      | .error e => .error e
      | .ok tl => .ok (n :: tl)

/-! ## Server (HijackServer._handle_client) -/

/-- The observable events of handling one connection: removing a completed
lobby id from the building table, delivering one member's starting-roster
send, invoking the injected runner, and invoking one member's `close()`. -/
inductive Ev where
  | removedPending (lobby_id : Jsonable)
  | sentRoster (member : Jsonable) (msg : Jsonable)
  | ranLobby
  | closed (member : Jsonable)

/-- Whether an event is a roster send. -/
def evIsSent : Ev → Bool
  | .sentRoster _ _ => true
  | _ => false

/-- Whether an event is a member-close invocation. -/
def evIsClosed : Ev → Bool
  | .closed _ => true
  | _ => false

/-- One member's starting broadcast: `remote.send_starting_metadata(list(
i.name for i in lobby.get_other_members(remote)))`. -/
def broadcastOne (members0 : List (Jsonable × HijackClient)) (r : HijackClient) :
    Except PyError (HijackClient × Jsonable) :=
  match clientName r with
  | .error e => .error e
  | .ok excl =>
    match get_other_members members0 excl with
    | .error e => .error e
    | .ok others =>
      match memberNames others with
      | .error e => .error e
      | .ok ns => send_starting_metadata r ns

/-- The `asyncio.gather` of all members' starting broadcasts, modelled by
dispatch in member order; one `sentRoster` event is emitted per attempted
member and the updated members are collected. -/
def broadcastRoster (members0 : List (Jsonable × HijackClient)) :
    List (Jsonable × HijackClient) →
    Except PyError (List (Jsonable × HijackClient)) × List Ev
  | [] => (.ok [], [])
  | (nm, r) :: rest =>
    match broadcastOne members0 r with
    | .error e => (.error e, [])
    | .ok (r', md) =>
      match broadcastRoster members0 rest with
      | (.error e, evs) => (.error e, .sentRoster nm md :: evs)
      | (.ok rest', evs) => (.ok ((nm, r') :: rest'), .sentRoster nm md :: evs)

/-- `for i in lobby: await i.close()` — strictly sequential closes, each of
which may fail with an outcome given by `closeF`; a failure stops the loop,
leaving the remaining members unclosed.  A `closed` event records that the
member's `close()` was invoked. -/
def closeAll (closeF : HijackClient → Except PyError Unit) :
    List (Jsonable × HijackClient) → Except PyError Unit × List Ev
  | [] => (.ok (), [])
  | (nm, r) :: rest =>
    match closeF r with
    | .error e => (.error e, [.closed nm])
    | .ok _ =>
      let p := closeAll closeF rest
      (p.1, .closed nm :: p.2)

/-- The server's pending table `_building_lobbies`, an insertion-ordered
dict keyed by lobby id. -/
def Table : Type := List (Jsonable × HijackLobby)

/-- Dict lookup by Python key equality. -/
def tableLookup (t : Table) (k : Jsonable) : Option HijackLobby :=
  match List.find? (fun p => pyKeyEq p.1 k) t with
  | some p => some p.2
  | none => none

/-- `dict.setdefault`: the stored lobby when present, otherwise insert the
freshly constructed default at the end. -/
def setdefault (t : Table) (k : Jsonable) (v : HijackLobby) : HijackLobby × Table :=
  match tableLookup t k with
  | some l => (l, t)
  | none => (v, List.append t [(k, v)])

/-- Replace the value stored at `k` — the model of the in-place mutation of
the lobby object the table aliases. -/
def tableSet (t : Table) (k : Jsonable) (l : HijackLobby) : Table :=
  List.map (fun p => if pyKeyEq p.1 k then (p.1, l) else p) t

/-- `del self._building_lobbies[remote.lobby]`. -/
def tableDel (t : Table) (k : Jsonable) : Table :=
  List.filter (fun p => !(pyKeyEq p.1 k)) t

/-- The handshake-and-join phase of `HijackServer._handle_client`: read the
identity line (`HijackClient.finish_connect_server`), evaluate
`remote.lobby`, `setdefault` a building lobby for it and `add_remote` the
connection.  Returns the outcome and the table exactly as the phase leaves
it: on failure no existing lobby is modified, but a fresh empty lobby
created by `setdefault` remains when `add_remote` subsequently raises. -/
def handshakeJoin (table : Table) (stream : List Char) :
    Except PyError (HijackClient × Jsonable × HijackLobby) × Table :=
  match read_message stream with
  | .error e => (.error e, table)
  | .ok (md, _) =>
    let remote : HijackClient := ⟨md, none, []⟩
    match clientLobby remote with
    | .error e => (.error e, table)
    | .ok lid =>
      if hashable lid = false then (.error .typeError, table)
      else
        let p := setdefault table lid (lobbyInit lid)
        match add_remote p.1 remote with
        | (.error e, _) => (.error e, p.2)
        | (.ok _, lobby2) => (.ok (remote, lid, lobby2), tableSet p.2 lid lobby2)

/-- The tail of the completion phase, after the removal from the pending
table: the broadcast outcome, then the injected runner, then the strictly
sequential member closes — with no try/finally, exactly as the code
stands. -/
def runPhase (runner : HijackLobby → Except PyError Unit)
    (closeF : HijackClient → Except PyError Unit) (lobbyId : Jsonable)
    (brRes : Except PyError (List (Jsonable × HijackClient)) × List Ev) :
    Except PyError Unit × List Ev :=
  match brRes with
  | (.error e, evs) => (.error e, evs)
  | (.ok members2, evs) =>
    match runner ⟨lobbyId, members2⟩ with
    | .error e => (.error e, evs ++ [.ranLobby])
    | .ok _ =>
      let p := closeAll closeF members2
      (p.1, evs ++ .ranLobby :: p.2)

/-- The completion phase of `HijackServer._handle_client`: consult the
injected completion predicate; when it holds, first delete the lobby id
from the building table, then broadcast the starting roster to every
member, run the injected handler, and finally close the members in order.
`runner` and `closeF` parametrise the outcomes of the injected `run_lobby`
and of each `close()`.  The ordered trace of observable events is
returned. -/
def afterJoin (check : HijackLobby → Bool) (runner : HijackLobby → Except PyError Unit)
    (closeF : HijackClient → Except PyError Unit) (table : Table) (lid : Jsonable)
    (lobby : HijackLobby) : Except PyError Unit × Table × List Ev :=
  if check lobby then
    let table2 := tableDel table lid
    let q := runPhase runner closeF lobby.lobby_id
      (broadcastRoster lobby.members lobby.members)
    (q.1, table2, .removedPending lid :: q.2)
  else (.ok (), table, [])

/-- `HijackServer._handle_client`, the composition of the two phases. -/
def handle_client (check : HijackLobby → Bool)
    (runner : HijackLobby → Except PyError Unit)
    (closeF : HijackClient → Except PyError Unit) (table : Table)
    (stream : List Char) : Except PyError Unit × Table × List Ev :=
  match handshakeJoin table stream with
  | (.error e, t2) => (.error e, t2, [])
  | (.ok (_, lid, lobby), t2) => afterJoin check runner closeF t2 lid lobby

/-! ## Claim-level definitions and concrete fixtures -/

/-- The implicit lobby invariant: every member is stored under its own
declared name. -/
def memberInv (lobby : HijackLobby) : Prop :=
  ∀ p ∈ lobby.members, clientName p.2 = .ok p.1

/-- Whether an identity value supports both `md["name"]` and `md["lobby"]`. -/
def identOk (md : Jsonable) : Bool :=
  (match getItem md "name" with | .ok _ => true | .error _ => false) &&
  (match getItem md "lobby" with | .ok _ => true | .error _ => false)

/-- The starting-roster message a member named `n` receives from a lobby
with the given membership: every stored name other than `n`, in insertion
order. -/
def rosterMsgFor (members : List (Jsonable × HijackClient)) (n : Jsonable) : Jsonable :=
  startingMsg ((members.map Prod.fst).filter (fun k => !(pyKeyEq k n)))

/-- Identity metadata of the fixture member `"a"` of lobby `"L"`. -/
def mdA : Jsonable := .obj [("name", .str "a"), ("lobby", .str "L")]

/-- Identity metadata of the fixture member `"b"` of lobby `"L"`. -/
def mdB : Jsonable := .obj [("name", .str "b"), ("lobby", .str "L")]

/-- A fixture connection named `"a"`. -/
def clientA : HijackClient := ⟨mdA, none, []⟩

/-- A fixture connection named `"b"`. -/
def clientB : HijackClient := ⟨mdB, none, []⟩

/-- Identity metadata of the fixture connection `"c"` for lobby `"L"`. -/
def mdC : Jsonable := .obj [("name", .str "c"), ("lobby", .str "L")]

/-- A fixture connection named `"c"`. -/
def clientC : HijackClient := ⟨mdC, none, []⟩

/-- A fixture lobby `"L"` with members `"a"` and `"b"`. -/
def lobbyAB : HijackLobby := ⟨.str "L", [(.str "a", clientA), (.str "b", clientB)]⟩

/-! ## Round-trip: auxiliary lemmas -/

theorem noDigitStart_nil : noDigitStart [] := by
  intro c h
  simp at h

theorem noDigitStart_cons {c : Char} {r : List Char} (h : c.isDigit = false) :
    noDigitStart (c :: r) := by
  intro c' h'
  simp at h'
  rw [← h']
  exact h

theorem digitChar_isDigit : ∀ d < 10, (digitChar d).isDigit = true := by decide

theorem digitChar_toNat : ∀ d < 10, (digitChar d).toNat = 48 + d := by decide

theorem hexVal_hexChar : ∀ d < 16, hexVal (hexChar d) = some d := by decide

theorem skipWs_cons {c : Char} {r : List Char} (h : isWsChar c = false) :
    skipWs (c :: r) = c :: r := by
  simp [skipWs, h]

theorem natDigitsRev_lt : ∀ fuel n, ∀ d ∈ natDigitsRev fuel n, d < 10 := by
  intro fuel
  induction fuel with
  | zero => intro n d h; simp [natDigitsRev] at h
  | succ f ih =>
    intro n d h
    by_cases hn : n = 0
    · simp [natDigitsRev, hn] at h
    · simp only [natDigitsRev, hn, if_false, List.mem_cons] at h
      rcases h with h | h
      · rw [h]; exact Nat.mod_lt _ (by norm_num)
      · exact ih _ _ h

theorem natToChars_isDigit : ∀ n, ∀ c ∈ natToChars n, c.isDigit = true := by
  intro n c h
  by_cases hn : n = 0
  · simp [natToChars, hn] at h
    rw [h]; decide
  · simp only [natToChars, hn, if_false, List.mem_reverse, List.mem_map] at h
    obtain ⟨d, hd, rfl⟩ := h
    exact digitChar_isDigit d (natDigitsRev_lt n n d hd)

theorem natToChars_ne_nil (n : Nat) : natToChars n ≠ [] := by
  by_cases hn : n = 0
  · simp [natToChars, hn]
  · obtain ⟨m, rfl⟩ : ∃ m, n = m + 1 := ⟨n - 1, by omega⟩
    simp [natToChars, natDigitsRev]

theorem digitsVal_append (l : List Char) : ∀ acc c,
    digitsVal (l ++ [c]) acc = digitsVal l acc * 10 + (c.toNat - 48) := by
  induction l with
  | nil => intro acc c; rfl
  | cons d r ih => intro acc c; exact ih _ c

theorem digitsVal_natDigitsRev : ∀ fuel n acc, n ≤ fuel →
    digitsVal (((natDigitsRev fuel n).map digitChar).reverse) acc
      = acc * 10 ^ (natDigitsRev fuel n).length + n := by
  intro fuel
  induction fuel with
  | zero =>
    intro n acc h
    have : n = 0 := by omega
    simp [this, natDigitsRev, digitsVal]
  | succ f ih =>
    intro n acc h
    by_cases hn : n = 0
    · simp [natDigitsRev, hn, digitsVal]
    · simp only [natDigitsRev, hn, if_false, List.map_cons, List.reverse_cons,
        List.length_cons]
      have hdiv : n / 10 ≤ f := by
        have := Nat.div_lt_self (Nat.pos_of_ne_zero hn) (by norm_num : 1 < 10)
        omega
      rw [digitsVal_append, ih (n / 10) acc hdiv,
        digitChar_toNat (n % 10) (Nat.mod_lt _ (by norm_num)),
        pow_succ, ← Nat.mul_assoc]
      generalize acc * 10 ^ (natDigitsRev f (n / 10)).length = B
      omega

theorem digitsVal_natToChars (n : Nat) : digitsVal (natToChars n) 0 = n := by
  by_cases hn : n = 0
  · simp [natToChars, hn, digitsVal]
  · simp only [natToChars, hn, if_false]
    rw [digitsVal_natDigitsRev n n 0 le_rfl]
    simp

theorem spanDigits_append : ∀ l rest, (∀ c ∈ l, c.isDigit = true) → noDigitStart rest →
    spanDigits (l ++ rest) = (l, rest) := by
  intro l
  induction l with
  | nil =>
    intro rest _ hr
    cases rest with
    | nil => rfl
    | cons c r =>
      have := hr c (by simp)
      simp [spanDigits, this]
  | cons c l ih =>
    intro rest h hr
    have hc := h c (by simp)
    have ih' := ih rest (fun c' hc' => h c' (by simp [hc'])) hr
    simp only [List.cons_append, spanDigits, hc, if_true]
    rw [show l.append rest = l ++ rest from rfl, ih']

theorem parseStrBody_plain {c : Char} (h1 : c ≠ '"') (h2 : c ≠ '\\') (X : List Char) :
    parseStrBody (c :: X) = match parseStrBody X with
      | some (cs, rest) => some (c :: cs, rest)
      | none => none := by
  simp only [parseStrBody, if_neg h1, if_neg h2]

theorem parseStrBody_backslash (r : List Char) :
    parseStrBody ('\\' :: r) = parseStrEsc r := by
  simp only [parseStrBody, if_neg (by decide : ¬('\\' : Char) = '"'),
    if_pos (rfl : ('\\' : Char) = '\\'), if_true]

theorem parseStrBody_esc {e c' : Char} (he : e ≠ 'u') (hu : escUn e = some c')
    (X : List Char) :
    parseStrBody ('\\' :: e :: X) = match parseStrBody X with
      | some (cs, rest) => some (c' :: cs, rest)
      | none => none := by
  rw [parseStrBody_backslash]
  simp only [parseStrEsc, if_neg he, hu]

theorem parseStrBody_u00 {v : Nat} (hv : v < 32) (X : List Char) :
    parseStrBody ('\\' :: 'u' :: '0' :: '0' :: hexChar (v / 16) :: hexChar (v % 16) :: X)
      = match parseStrBody X with
        | some (cs, rest) => some (Char.ofNat v :: cs, rest)
        | none => none := by
  rw [parseStrBody_backslash]
  simp only [parseStrEsc, if_pos (rfl : ('u' : Char) = 'u'), if_true]
  simp only [parseStrU, (by decide : hexVal '0' = some 0),
    hexVal_hexChar (v / 16) (by omega), hexVal_hexChar (v % 16) (by omega)]
  have hn : ((0 * 16 + 0) * 16 + v / 16) * 16 + v % 16 = v := by omega
  rw [hn, if_pos (by omega : v < 0xd800)]

theorem parseStrBody_escStr : ∀ s rest, parseStrBody (escStr s ++ '"' :: rest) = some (s, rest) := by
  intro s
  induction s with
  | nil =>
    intro rest
    simp [escStr, parseStrBody]
  | cons c cs ih =>
    intro rest
    rw [show escStr (c :: cs) = escChar c ++ escStr cs from rfl, List.append_assoc]
    by_cases h1 : c = '"'
    · subst h1
      rw [show escChar '"' = ['\\', '"'] from rfl]
      rw [show (['\\', '"'] : List Char) ++ (escStr cs ++ '"' :: rest)
        = '\\' :: '"' :: (escStr cs ++ '"' :: rest) from rfl]
      rw [parseStrBody_esc (by decide) (by decide : escUn '"' = some '"'), ih rest]
    · by_cases h2 : c = '\\'
      · subst h2
        rw [show escChar '\\' = ['\\', '\\'] from rfl]
        rw [show (['\\', '\\'] : List Char) ++ (escStr cs ++ '"' :: rest)
          = '\\' :: '\\' :: (escStr cs ++ '"' :: rest) from rfl]
        rw [parseStrBody_esc (by decide) (by decide : escUn '\\' = some '\\'), ih rest]
      · by_cases h3 : c = '\n'
        · subst h3
          rw [show escChar '\n' = ['\\', 'n'] from rfl]
          rw [show (['\\', 'n'] : List Char) ++ (escStr cs ++ '"' :: rest)
            = '\\' :: 'n' :: (escStr cs ++ '"' :: rest) from rfl]
          rw [parseStrBody_esc (by decide) (by decide : escUn 'n' = some '\n'), ih rest]
        · by_cases h4 : c = '\r'
          · subst h4
            rw [show escChar '\r' = ['\\', 'r'] from rfl]
            rw [show (['\\', 'r'] : List Char) ++ (escStr cs ++ '"' :: rest)
              = '\\' :: 'r' :: (escStr cs ++ '"' :: rest) from rfl]
            rw [parseStrBody_esc (by decide) (by decide : escUn 'r' = some '\r'), ih rest]
          · by_cases h5 : c = '\t'
            · subst h5
              rw [show escChar '\t' = ['\\', 't'] from rfl]
              rw [show (['\\', 't'] : List Char) ++ (escStr cs ++ '"' :: rest)
                = '\\' :: 't' :: (escStr cs ++ '"' :: rest) from rfl]
              rw [parseStrBody_esc (by decide) (by decide : escUn 't' = some '\t'), ih rest]
            · by_cases h6 : c.toNat = 8
              · have hc : Char.ofNat 8 = c := by rw [← h6, Char.ofNat_toNat]
                rw [show escChar c = ['\\', 'b'] from by
                  simp [escChar, h1, h2, h3, h4, h5, h6]]
                rw [show (['\\', 'b'] : List Char) ++ (escStr cs ++ '"' :: rest)
                  = '\\' :: 'b' :: (escStr cs ++ '"' :: rest) from rfl]
                rw [parseStrBody_esc (by decide) (rfl : escUn 'b' = some (Char.ofNat 8)),
                  ih rest, hc]
              · by_cases h7 : c.toNat = 12
                · have hc : Char.ofNat 12 = c := by rw [← h7, Char.ofNat_toNat]
                  rw [show escChar c = ['\\', 'f'] from by
                    simp [escChar, h1, h2, h3, h4, h5, h6, h7]]
                  rw [show (['\\', 'f'] : List Char) ++ (escStr cs ++ '"' :: rest)
                    = '\\' :: 'f' :: (escStr cs ++ '"' :: rest) from rfl]
                  rw [parseStrBody_esc (by decide) (rfl : escUn 'f' = some (Char.ofNat 12)),
                    ih rest, hc]
                · by_cases h8 : c.toNat < 32
                  · have hc : Char.ofNat c.toNat = c := Char.ofNat_toNat c
                    rw [show escChar c
                      = ['\\', 'u', '0', '0', hexChar (c.toNat / 16), hexChar (c.toNat % 16)] from by
                      simp [escChar, h1, h2, h3, h4, h5, h6, h7, h8]]
                    rw [show (['\\', 'u', '0', '0', hexChar (c.toNat / 16), hexChar (c.toNat % 16)] : List Char)
                        ++ (escStr cs ++ '"' :: rest)
                      = '\\' :: 'u' :: '0' :: '0' :: hexChar (c.toNat / 16) :: hexChar (c.toNat % 16)
                        :: (escStr cs ++ '"' :: rest) from rfl]
                    rw [parseStrBody_u00 h8, ih rest, hc]
                  · rw [show escChar c = [c] from by
                      simp [escChar, h1, h2, h3, h4, h5, h6, h7, h8]]
                    rw [show ([c] : List Char) ++ (escStr cs ++ '"' :: rest)
                      = c :: (escStr cs ++ '"' :: rest) from rfl]
                    rw [parseStrBody_plain h1 h2, ih rest]

theorem parseNum_intToChars : ∀ i rest, noDigitStart rest →
    parseNum (intToChars i ++ rest) = some (i, rest) := by
  intro i rest hr
  cases i with
  | ofNat n =>
    obtain ⟨c, cs, hcc⟩ : ∃ c cs, natToChars n = c :: cs := by
      cases hh : natToChars n with
      | nil => exact absurd hh (natToChars_ne_nil n)
      | cons c cs => exact ⟨c, cs, rfl⟩
    have hcd : c.isDigit = true := natToChars_isDigit n c (by rw [hcc]; simp)
    have hcm : c ≠ '-' := by
      intro h; rw [h] at hcd; exact absurd hcd (by decide)
    have hspan : spanDigits ((c :: cs) ++ rest) = (c :: cs, rest) := by
      rw [← hcc]
      exact spanDigits_append _ rest (natToChars_isDigit n) hr
    show parseNum (natToChars n ++ rest) = some ((n : Int), rest)
    rw [hcc]
    show parseNum (c :: (cs ++ rest)) = some ((n : Int), rest)
    simp only [parseNum, hcm, if_false]
    rw [show c :: (cs ++ rest) = (c :: cs) ++ rest from rfl, hspan]
    have hval : digitsVal (c :: cs) 0 = n := by rw [← hcc]; exact digitsVal_natToChars n
    simp [hval]
  | negSucc m =>
    show parseNum (('-' :: natToChars (m + 1)) ++ rest) = some (Int.negSucc m, rest)
    have hspan : spanDigits (natToChars (m + 1) ++ rest) = (natToChars (m + 1), rest) :=
      spanDigits_append _ rest (natToChars_isDigit (m + 1)) hr
    obtain ⟨c, cs, hcc⟩ : ∃ c cs, natToChars (m + 1) = c :: cs := by
      cases hh : natToChars (m + 1) with
      | nil => exact absurd hh (natToChars_ne_nil (m + 1))
      | cons c cs => exact ⟨c, cs, rfl⟩
    rw [List.cons_append]
    simp only [parseNum, if_pos]
    rw [hspan]
    have hval : digitsVal (natToChars (m + 1)) 0 = m + 1 := digitsVal_natToChars (m + 1)
    rw [hcc]
    show (if (c :: cs).isEmpty = true then none
      else some (-(digitsVal (c :: cs) 0 : Int), rest)) = some (Int.negSucc m, rest)
    rw [← hcc, hval]
    simp only [hcc, List.isEmpty_cons, if_false]
    rw [Int.negSucc_eq]
    norm_num

/-! ## Round-trip: one-step parser equations and head-shape lemmas -/

theorem parseVal_quote (f : Nat) (r : List Char) :
    parseVal (f + 1) ('"' :: r) =
      (match parseStrBody r with
       | some (cs, rest) => some (.str ⟨cs⟩, rest)
       | none => none) := rfl

theorem parseVal_brace (f : Nat) (r : List Char) :
    parseVal (f + 1) ('{' :: r) =
      (match skipWs r with
       | [] => none
       | c2 :: r2 =>
         if c2 = '}' then some (.obj [], r2) else parseMembers f (c2 :: r2) []) := rfl

theorem parseVal_bracket (f : Nat) (r : List Char) :
    parseVal (f + 1) ('[' :: r) =
      (match skipWs r with
       | [] => none
       | c2 :: r2 =>
         if c2 = ']' then some (.arr [], r2) else parseItems f (c2 :: r2) []) := rfl

theorem parseVal_brace_cons (f : Nat) {r : List Char} {c2 : Char} {r2 : List Char}
    (hs : skipWs r = c2 :: r2) :
    parseVal (f + 1) ('{' :: r) =
      if c2 = '}' then some (.obj [], r2) else parseMembers f (c2 :: r2) [] := by
  rw [parseVal_brace, hs]

theorem parseVal_bracket_cons (f : Nat) {r : List Char} {c2 : Char} {r2 : List Char}
    (hs : skipWs r = c2 :: r2) :
    parseVal (f + 1) ('[' :: r) =
      if c2 = ']' then some (.arr [], r2) else parseItems f (c2 :: r2) [] := by
  rw [parseVal_bracket, hs]

theorem parseItems_succ (f : Nat) (s : List Char) (acc : List Jsonable) :
    parseItems (f + 1) s acc =
      (match parseVal f s with
       | none => none
       | some (v, rest) =>
         match skipWs rest with
         | [] => none
         | c2 :: r2 =>
           if c2 = ',' then parseItems f (skipWs r2) (acc ++ [v])
           else if c2 = ']' then some (.arr (acc ++ [v]), r2)
           else none) := rfl

theorem parseMembers_quote (f : Nat) (r : List Char) (acc : List (String × Jsonable)) :
    parseMembers (f + 1) ('"' :: r) acc =
      (match parseStrBody r with
       | none => none
       | some (kcs, r2) =>
         match skipWs r2 with
         | [] => none
         | c3 :: r3 =>
           if c3 = ':' then
             match parseVal f (skipWs r3) with
             | none => none
             | some (v, rest) =>
               match skipWs rest with
               | [] => none
               | c4 :: r4 =>
                 if c4 = ',' then parseMembers f (skipWs r4) (assocSet acc ⟨kcs⟩ v)
                 else if c4 = '}' then some (.obj (assocSet acc ⟨kcs⟩ v), r4)
                 else none
           else none) := rfl

theorem parseVal_num (f : Nat) (c : Char) (r : List Char) (h : c.isDigit = true ∨ c = '-') :
    parseVal (f + 1) (c :: r) = (match parseNum (c :: r) with
      | some (i, rest) => some (.num i, rest)
      | none => none) := by
  have h1 : c ≠ '{' := by
    rintro rfl; rcases h with h | h <;> exact absurd h (by decide)
  have h2 : c ≠ '[' := by
    rintro rfl; rcases h with h | h <;> exact absurd h (by decide)
  have h3 : c ≠ '"' := by
    rintro rfl; rcases h with h | h <;> exact absurd h (by decide)
  have h4 : c ≠ 't' := by
    rintro rfl; rcases h with h | h <;> exact absurd h (by decide)
  have h5 : c ≠ 'f' := by
    rintro rfl; rcases h with h | h <;> exact absurd h (by decide)
  have h6 : c ≠ 'n' := by
    rintro rfl; rcases h with h | h <;> exact absurd h (by decide)
  simp only [parseVal, if_neg h1, if_neg h2, if_neg h3, if_neg h4, if_neg h5, if_neg h6]

theorem isDigit_not_ws {c : Char} (h : c.isDigit = true) : isWsChar c = false := by
  by_cases h1 : c = ' '
  · rw [h1] at h; exact absurd h (by decide)
  · by_cases h2 : c = '\t'
    · rw [h2] at h; exact absurd h (by decide)
    · by_cases h3 : c = '\n'
      · rw [h3] at h; exact absurd h (by decide)
      · by_cases h4 : c = '\r'
        · rw [h4] at h; exact absurd h (by decide)
        · simp [isWsChar, h1, h2, h3, h4]

theorem dumps_head_spec (m : Jsonable) :
    ∃ c cs, dumps m = c :: cs ∧ isWsChar c = false ∧ c ≠ ']' := by
  cases m with
  | obj kvs => exact ⟨'{', dumpsObj kvs ++ ['}'], by simp [dumps], by decide, by decide⟩
  | arr xs => exact ⟨'[', dumpsArr xs ++ [']'], by simp [dumps], by decide, by decide⟩
  | str s => exact ⟨'"', escStr s.data ++ ['"'], by simp [dumps], by decide, by decide⟩
  | num i =>
    cases i with
    | ofNat n =>
      obtain ⟨c, cs, hcc⟩ : ∃ c cs, natToChars n = c :: cs := by
        cases hh : natToChars n with
        | nil => exact absurd hh (natToChars_ne_nil n)
        | cons c cs => exact ⟨c, cs, rfl⟩
      have hd : c.isDigit = true := natToChars_isDigit n c (by rw [hcc]; simp)
      refine ⟨c, cs, ?_, isDigit_not_ws hd, ?_⟩
      · simp only [dumps, intToChars]; exact hcc
      · rintro rfl; exact absurd hd (by decide)
    | negSucc m' =>
      exact ⟨'-', natToChars (m' + 1), by simp only [dumps, intToChars], by decide, by decide⟩
  | bool b =>
    cases b with
    | true => exact ⟨'t', ['r', 'u', 'e'], by simp [dumps], by decide, by decide⟩
    | false => exact ⟨'f', ['a', 'l', 's', 'e'], by simp [dumps], by decide, by decide⟩
  | null => exact ⟨'n', ['u', 'l', 'l'], by simp [dumps], by decide, by decide⟩

theorem skipWs_head_app {c : Char} (cs X : List Char) (hws : isWsChar c = false) :
    skipWs ((c :: cs) ++ X) = (c :: cs) ++ X := by
  rw [List.cons_append, skipWs_cons hws]

theorem skipWs_dumps (m : Jsonable) (X : List Char) :
    skipWs (dumps m ++ X) = dumps m ++ X := by
  obtain ⟨c, cs, hcc, hws, _⟩ := dumps_head_spec m
  rw [hcc, skipWs_head_app cs X hws]

theorem dumps_length_pos (m : Jsonable) : 0 < (dumps m).length := by
  obtain ⟨c, cs, hcc, _, _⟩ := dumps_head_spec m
  simp [hcc]

theorem dumpsArr_cons_ex (x : Jsonable) (t : List Jsonable) :
    ∃ u, dumpsArr (x :: t) = dumps x ++ u := by
  cases t with
  | nil => exact ⟨[], by simp [dumpsArr]⟩
  | cons y t' => exact ⟨',' :: dumpsArr (y :: t'), by simp [dumpsArr]⟩

theorem dumpsArr_head (x : Jsonable) (t : List Jsonable) :
    ∃ c cs, dumpsArr (x :: t) = c :: cs ∧ isWsChar c = false ∧ c ≠ ']' := by
  obtain ⟨u, hu⟩ := dumpsArr_cons_ex x t
  obtain ⟨c, cs, hc, hws, hne⟩ := dumps_head_spec x
  exact ⟨c, cs ++ u, by rw [hu, hc]; simp, hws, hne⟩

theorem dumpsObj_head (p : String × Jsonable) (t : List (String × Jsonable)) :
    ∃ u, dumpsObj (p :: t) = '"' :: u := by
  obtain ⟨k, v⟩ := p
  cases t with
  | nil => exact ⟨escStr k.data ++ '"' :: ':' :: dumps v, by simp [dumpsObj]⟩
  | cons q t' =>
    exact ⟨escStr k.data ++ '"' :: ':' :: dumps v ++ ',' :: dumpsObj (q :: t'), by
      simp [dumpsObj, List.append_assoc]⟩

theorem keyAbsent_mem {k : String} : ∀ {l : List (String × Jsonable)},
    keyAbsent k l = true → ∀ p ∈ l, (p.1 == k) = false := by
  intro l
  induction l with
  | nil => intro _ p hp; simp at hp
  | cons q t ih =>
    intro h p hp
    obtain ⟨q1, q2⟩ := q
    simp only [keyAbsent, Bool.and_eq_true, Bool.not_eq_true'] at h
    rcases List.mem_cons.mp hp with rfl | hp'
    · exact h.1
    · exact ih h.2 p hp'

theorem assocSet_absent {l : List (String × Jsonable)} {k : String} {v : Jsonable}
    (h : l.any (fun q => q.1 == k) = false) : assocSet l k v = l ++ [(k, v)] := by
  simp [assocSet, h]

/-! ## Round-trip: the main induction -/

mutual
theorem parseVal_dumps : ∀ m fuel rest, wfJson m = true → noDigitStart rest →
    2 * (dumps m ++ rest).length < fuel →
    parseVal fuel (dumps m ++ rest) = some (m, rest)
  | .null, fuel, rest => fun _ _ hf => by
    obtain ⟨f, rfl⟩ : ∃ f, fuel = f + 1 := ⟨fuel - 1, by omega⟩
    rfl
  | .bool true, fuel, rest => fun _ _ hf => by
    obtain ⟨f, rfl⟩ : ∃ f, fuel = f + 1 := ⟨fuel - 1, by omega⟩
    rfl
  | .bool false, fuel, rest => fun _ _ hf => by
    obtain ⟨f, rfl⟩ : ∃ f, fuel = f + 1 := ⟨fuel - 1, by omega⟩
    rfl
  | .num i, fuel, rest => fun _ hnd hf => by
    obtain ⟨f, rfl⟩ : ∃ f, fuel = f + 1 := ⟨fuel - 1, by omega⟩
    have hhead : ∃ c cs, intToChars i = c :: cs ∧ (c.isDigit = true ∨ c = '-') := by
      cases i with
      | ofNat n =>
        obtain ⟨c, cs, hcc⟩ : ∃ c cs, natToChars n = c :: cs := by
          cases hh : natToChars n with
          | nil => exact absurd hh (natToChars_ne_nil n)
          | cons c cs => exact ⟨c, cs, rfl⟩
        exact ⟨c, cs, hcc, Or.inl (natToChars_isDigit n c (by rw [hcc]; simp))⟩
      | negSucc m' => exact ⟨'-', natToChars (m' + 1), rfl, Or.inr rfl⟩
    obtain ⟨c, cs, hcc, hor⟩ := hhead
    have hD : dumps (.num i) = intToChars i := by simp [dumps]
    rw [hD, hcc, List.cons_append, parseVal_num f c (cs ++ rest) hor, ← List.cons_append,
      ← hcc, parseNum_intToChars i rest hnd]
  | .str s, fuel, rest => fun _ _ hf => by
    obtain ⟨f, rfl⟩ : ∃ f, fuel = f + 1 := ⟨fuel - 1, by omega⟩
    have hD : dumps (.str s) ++ rest = '"' :: (escStr s.data ++ '"' :: rest) := by
      simp [dumps]
    rw [hD, parseVal_quote, parseStrBody_escStr]
  | .obj [], fuel, rest => fun _ _ hf => by
    obtain ⟨f, rfl⟩ : ∃ f, fuel = f + 1 := ⟨fuel - 1, by omega⟩
    have hD : dumps (.obj []) ++ rest = '{' :: ('}' :: rest) := by simp [dumps, dumpsObj]
    rw [hD, parseVal_brace, skipWs_cons (by decide : isWsChar '}' = false)]
    simp
  | .obj ((k, v) :: t), fuel, rest => fun hw _ hf => by
    obtain ⟨f, rfl⟩ : ∃ f, fuel = f + 1 := ⟨fuel - 1, by omega⟩
    have hD : dumps (.obj ((k, v) :: t)) ++ rest
        = '{' :: (dumpsObj ((k, v) :: t) ++ '}' :: rest) := by
      simp [dumps]
    obtain ⟨u, hu⟩ := dumpsObj_head (k, v) t
    have hs : skipWs (dumpsObj ((k, v) :: t) ++ '}' :: rest) = '"' :: (u ++ '}' :: rest) := by
      rw [hu, skipWs_head_app u ('}' :: rest) (by decide), List.cons_append]
    rw [hD, parseVal_brace_cons f hs, if_neg (by decide : ¬('"' : Char) = '}')]
    rw [show '"' :: (u ++ '}' :: rest) = dumpsObj ((k, v) :: t) ++ '}' :: rest from by
      rw [hu, List.cons_append]]
    have hflen : 2 * (dumpsObj ((k, v) :: t) ++ '}' :: rest).length + 1 < f := by
      rw [hD] at hf
      simp only [List.length_cons] at hf
      omega
    exact parseMembers_dumpsObj ((k, v) :: t) f [] rest (by simpa [wfJson] using hw)
      (by simp) (by intro p hp; simp) hflen
  | .arr [], fuel, rest => fun _ _ hf => by
    obtain ⟨f, rfl⟩ : ∃ f, fuel = f + 1 := ⟨fuel - 1, by omega⟩
    have hD : dumps (.arr []) ++ rest = '[' :: (']' :: rest) := by simp [dumps, dumpsArr]
    rw [hD, parseVal_bracket, skipWs_cons (by decide : isWsChar ']' = false)]
    simp
  | .arr (x :: t), fuel, rest => fun hw _ hf => by
    obtain ⟨f, rfl⟩ : ∃ f, fuel = f + 1 := ⟨fuel - 1, by omega⟩
    have hD : dumps (.arr (x :: t)) ++ rest
        = '[' :: (dumpsArr (x :: t) ++ ']' :: rest) := by
      simp [dumps]
    obtain ⟨c0, cs0, hc0, hws0, hne0⟩ := dumpsArr_head x t
    have hs : skipWs (dumpsArr (x :: t) ++ ']' :: rest) = c0 :: (cs0 ++ ']' :: rest) := by
      rw [hc0, skipWs_head_app cs0 (']' :: rest) hws0, List.cons_append]
    rw [hD, parseVal_bracket_cons f hs, if_neg hne0]
    rw [show c0 :: (cs0 ++ ']' :: rest) = dumpsArr (x :: t) ++ ']' :: rest from by
      rw [hc0, List.cons_append]]
    have hflen : 2 * (dumpsArr (x :: t) ++ ']' :: rest).length + 1 < f := by
      rw [hD] at hf
      simp only [List.length_cons] at hf
      omega
    exact parseItems_dumpsArr (x :: t) f [] rest (by simpa [wfJson] using hw)
      (by simp) hflen

theorem parseItems_dumpsArr : ∀ xs fuel acc rest, wfArr xs = true → xs ≠ [] →
    2 * (dumpsArr xs ++ ']' :: rest).length + 1 < fuel →
    parseItems fuel (dumpsArr xs ++ ']' :: rest) acc = some (.arr (acc ++ xs), rest)
  | [], _, _, _ => fun _ hne _ => absurd rfl hne
  | [x], fuel, acc, rest => fun hw _ hf => by
    obtain ⟨f, rfl⟩ : ∃ f, fuel = f + 1 := ⟨fuel - 1, by omega⟩
    have hD : dumpsArr [x] ++ ']' :: rest = dumps x ++ ']' :: rest := by simp [dumpsArr]
    have hwx : wfJson x = true := by
      rw [wfArr, Bool.and_eq_true] at hw; exact hw.1
    have hx : parseVal f (dumps x ++ ']' :: rest) = some (x, ']' :: rest) :=
      parseVal_dumps x f (']' :: rest) hwx (noDigitStart_cons (by decide))
        (by rw [hD] at hf; omega)
    simp only [hD, parseItems_succ, hx, skipWs_cons (by decide : isWsChar ']' = false),
      if_neg (by decide : ¬(']' : Char) = ','), if_pos (rfl : (']' : Char) = ']'), if_true]
  | x :: y :: t, fuel, acc, rest => fun hw _ hf => by
    obtain ⟨f, rfl⟩ : ∃ f, fuel = f + 1 := ⟨fuel - 1, by omega⟩
    have hD : dumpsArr (x :: y :: t) ++ ']' :: rest
        = dumps x ++ (',' :: (dumpsArr (y :: t) ++ ']' :: rest)) := by
      simp [dumpsArr]
    rw [wfArr, Bool.and_eq_true] at hw
    obtain ⟨hwx, hwt⟩ := hw
    rw [hD] at hf
    have hx : parseVal f (dumps x ++ (',' :: (dumpsArr (y :: t) ++ ']' :: rest)))
        = some (x, ',' :: (dumpsArr (y :: t) ++ ']' :: rest)) :=
      parseVal_dumps x f _ hwx (noDigitStart_cons (by decide))
        (by simp only [List.length_append, List.length_cons] at hf ⊢; omega)
    have hrec : parseItems f (dumpsArr (y :: t) ++ ']' :: rest) (acc ++ [x])
        = some (.arr ((acc ++ [x]) ++ (y :: t)), rest) :=
      parseItems_dumpsArr (y :: t) f (acc ++ [x]) rest hwt (by simp)
        (by simp only [List.length_append, List.length_cons] at hf ⊢
            have := dumps_length_pos x
            omega)
    obtain ⟨c0, cs0, hc0, hws0, _⟩ := dumpsArr_head y t
    have hskip : skipWs (dumpsArr (y :: t) ++ ']' :: rest)
        = dumpsArr (y :: t) ++ ']' :: rest := by
      rw [hc0, skipWs_head_app cs0 (']' :: rest) hws0]
    simp only [hD, parseItems_succ, hx, skipWs_cons (by decide : isWsChar ',' = false),
      if_pos (rfl : (',' : Char) = ','), if_true, hskip, hrec]
    simp

theorem parseMembers_dumpsObj : ∀ kvs fuel acc rest, wfObj kvs = true → kvs ≠ [] →
    (∀ p ∈ kvs, acc.any (fun q => q.1 == p.1) = false) →
    2 * (dumpsObj kvs ++ '}' :: rest).length + 1 < fuel →
    parseMembers fuel (dumpsObj kvs ++ '}' :: rest) acc = some (.obj (acc ++ kvs), rest)
  | [], _, _, _ => fun _ hne _ _ => absurd rfl hne
  | [(k, v)], fuel, acc, rest => fun hw _ hacc hf => by
    obtain ⟨f, rfl⟩ : ∃ f, fuel = f + 1 := ⟨fuel - 1, by omega⟩
    have hD : dumpsObj [(k, v)] ++ '}' :: rest
        = '"' :: (escStr k.data ++ '"' :: (':' :: (dumps v ++ '}' :: rest))) := by
      simp [dumpsObj]
    have hwv : wfJson v = true := by
      rw [wfObj, Bool.and_eq_true, Bool.and_eq_true] at hw; exact hw.1.2
    rw [hD] at hf
    have hv : parseVal f (dumps v ++ '}' :: rest) = some (v, '}' :: rest) :=
      parseVal_dumps v f _ hwv (noDigitStart_cons (by decide))
        (by simp only [List.length_append, List.length_cons] at hf ⊢; omega)
    simp only [hD, parseMembers_quote, parseStrBody_escStr,
      skipWs_cons (by decide : isWsChar ':' = false),
      if_pos (rfl : (':' : Char) = ':'), if_true, skipWs_dumps, hv,
      skipWs_cons (by decide : isWsChar '}' = false),
      if_neg (by decide : ¬('}' : Char) = ','), if_pos (rfl : ('}' : Char) = '}')]
    rw [show (⟨k.data⟩ : String) = k from rfl,
      assocSet_absent (hacc (k, v) (by simp))]
  | (k, v) :: p :: t, fuel, acc, rest => fun hw _ hacc hf => by
    obtain ⟨f, rfl⟩ : ∃ f, fuel = f + 1 := ⟨fuel - 1, by omega⟩
    have hD : dumpsObj ((k, v) :: p :: t) ++ '}' :: rest
        = '"' :: (escStr k.data ++ '"' :: (':' ::
            (dumps v ++ (',' :: (dumpsObj (p :: t) ++ '}' :: rest))))) := by
      simp [dumpsObj]
    rw [wfObj, Bool.and_eq_true, Bool.and_eq_true] at hw
    obtain ⟨⟨hka, hwv⟩, hwt⟩ := hw
    rw [hD] at hf
    have hv : parseVal f (dumps v ++ (',' :: (dumpsObj (p :: t) ++ '}' :: rest)))
        = some (v, ',' :: (dumpsObj (p :: t) ++ '}' :: rest)) :=
      parseVal_dumps v f _ hwv (noDigitStart_cons (by decide))
        (by simp only [List.length_append, List.length_cons] at hf ⊢; omega)
    have hacc2 : ∀ q ∈ (p :: t), (acc ++ [(k, v)]).any (fun z => z.1 == q.1) = false := by
      intro q hq
      have h1 : acc.any (fun z => z.1 == q.1) = false := hacc q (by simp [hq])
      have h2 : (q.1 == k) = false := keyAbsent_mem hka q hq
      have h3 : (k == q.1) = false := by
        rw [beq_eq_false_iff_ne] at h2 ⊢
        exact fun h => h2 h.symm
      simp [List.any_append, h1, h3]
    have hrec : parseMembers f (dumpsObj (p :: t) ++ '}' :: rest) (acc ++ [(k, v)])
        = some (.obj ((acc ++ [(k, v)]) ++ (p :: t)), rest) :=
      parseMembers_dumpsObj (p :: t) f (acc ++ [(k, v)]) rest hwt (by simp) hacc2
        (by simp only [List.length_append, List.length_cons] at hf ⊢
            have := dumps_length_pos v
            omega)
    obtain ⟨u, hu⟩ := dumpsObj_head p t
    have hskip : skipWs (dumpsObj (p :: t) ++ '}' :: rest)
        = dumpsObj (p :: t) ++ '}' :: rest := by
      rw [hu, skipWs_head_app u ('}' :: rest) (by decide), List.cons_append]
    simp only [hD, parseMembers_quote, parseStrBody_escStr,
      skipWs_cons (by decide : isWsChar ':' = false),
      if_pos (rfl : (':' : Char) = ':'), if_true, skipWs_dumps, hv,
      skipWs_cons (by decide : isWsChar ',' = false),
      if_pos (rfl : (',' : Char) = ','), hskip]
    rw [show (⟨k.data⟩ : String) = k from rfl,
      assocSet_absent (hacc (k, v) (by simp)), hrec]
    simp
end

/-- Round-trip at the top level: decoding the canonical encoding of any
well-formed message yields the message back. -/
theorem json_loads_dumps (m : Jsonable) (h : wfJson m = true) :
    json_loads (dumps m) = some m := by
  have h1 : skipWs (dumps m) = dumps m := by
    have := skipWs_dumps m []
    simpa using this
  have h2 : parseVal (2 * (dumps m).length + 2) (dumps m ++ []) = some (m, []) :=
    parseVal_dumps m _ [] h noDigitStart_nil (by simp)
  rw [List.append_nil] at h2
  simp only [json_loads, h1, h2]
  simp [skipWs]

/-! ## The canonical encoding never contains a line terminator -/

theorem hexChar_ne_nl : ∀ d < 16, hexChar d ≠ '\n' := by decide

theorem escChar_no_nl (c : Char) : '\n' ∉ escChar c := by
  unfold escChar
  split_ifs with h1 h2 h3 h4 h5 h6 h7 h8
  · decide
  · decide
  · decide
  · decide
  · decide
  · decide
  · decide
  · intro h
    rcases List.mem_cons.mp h with h | h
    · exact absurd h (by decide)
    rcases List.mem_cons.mp h with h | h
    · exact absurd h (by decide)
    rcases List.mem_cons.mp h with h | h
    · exact absurd h (by decide)
    rcases List.mem_cons.mp h with h | h
    · exact absurd h (by decide)
    rcases List.mem_cons.mp h with h | h
    · exact absurd (h.symm) (hexChar_ne_nl (c.toNat / 16) (by omega))
    rcases List.mem_cons.mp h with h | h
    · exact absurd (h.symm) (hexChar_ne_nl (c.toNat % 16) (by omega))
    · simp at h
  · intro h
    rcases List.mem_cons.mp h with h | h
    · exact h3 h.symm
    · simp at h

theorem escStr_no_nl : ∀ l, '\n' ∉ escStr l := by
  intro l
  induction l with
  | nil => simp [escStr]
  | cons c cs ih =>
    simp only [escStr]
    intro h
    rcases List.mem_append.mp h with h | h
    · exact escChar_no_nl c h
    · exact ih h

theorem natToChars_no_nl (n : Nat) : '\n' ∉ natToChars n := by
  intro h
  have := natToChars_isDigit n _ h
  exact absurd this (by decide)

theorem intToChars_no_nl (i : Int) : '\n' ∉ intToChars i := by
  cases i with
  | ofNat n => exact natToChars_no_nl n
  | negSucc m =>
    intro h
    rcases List.mem_cons.mp h with h | h
    · exact absurd h (by decide)
    · exact natToChars_no_nl (m + 1) h

mutual
theorem dumps_no_nl : ∀ m, '\n' ∉ dumps m
  | .obj kvs => by
    simp only [dumps]
    intro h
    rcases List.mem_append.mp h with h | h
    · rcases List.mem_cons.mp h with h | h
      · exact absurd h (by decide)
      · exact dumpsObj_no_nl kvs h
    · simp at h
  | .arr xs => by
    simp only [dumps]
    intro h
    rcases List.mem_append.mp h with h | h
    · rcases List.mem_cons.mp h with h | h
      · exact absurd h (by decide)
      · exact dumpsArr_no_nl xs h
    · simp at h
  | .str s => by
    simp only [dumps]
    intro h
    rcases List.mem_append.mp h with h | h
    · rcases List.mem_cons.mp h with h | h
      · exact absurd h (by decide)
      · exact escStr_no_nl s.data h
    · simp at h
  | .num i => by
    simp only [dumps]
    exact intToChars_no_nl i
  | .bool true => by decide
  | .bool false => by decide
  | .null => by decide

theorem dumpsArr_no_nl : ∀ xs, '\n' ∉ dumpsArr xs
  | [] => by simp [dumpsArr]
  | [x] => by
    simp only [dumpsArr]
    exact dumps_no_nl x
  | x :: y :: t => by
    simp only [dumpsArr]
    intro h
    rcases List.mem_append.mp h with h | h
    · exact dumps_no_nl x h
    · rcases List.mem_cons.mp h with h | h
      · exact absurd h (by decide)
      · exact dumpsArr_no_nl (y :: t) h

theorem dumpsObj_no_nl : ∀ kvs, '\n' ∉ dumpsObj kvs
  | [] => by simp [dumpsObj]
  | [(k, v)] => by
    simp only [dumpsObj]
    intro h
    rcases List.mem_append.mp h with h | h
    · rcases List.mem_cons.mp h with h | h
      · exact absurd h (by decide)
      · exact escStr_no_nl k.data h
    · rcases List.mem_cons.mp h with h | h
      · exact absurd h (by decide)
      rcases List.mem_cons.mp h with h | h
      · exact absurd h (by decide)
      · exact dumps_no_nl v h
  | (k, v) :: p :: t => by
    simp only [dumpsObj]
    intro h
    rcases List.mem_append.mp h with h | h
    · rcases List.mem_append.mp h with h | h
      · rcases List.mem_cons.mp h with h | h
        · exact absurd h (by decide)
        · exact escStr_no_nl k.data h
      · rcases List.mem_cons.mp h with h | h
        · exact absurd h (by decide)
        rcases List.mem_cons.mp h with h | h
        · exact absurd h (by decide)
        · exact dumps_no_nl v h
    · rcases List.mem_cons.mp h with h | h
      · exact absurd h (by decide)
      · exact dumpsObj_no_nl (p :: t) h
end

/-! ## Generic lemmas about the lobby and table operations -/

theorem pyKeyEq_refl (n : Jsonable) (h : hashable n = true) : pyKeyEq n n = true := by
  cases n <;> simp_all [pyKeyEq, hashable]

theorem tableLookup_del_self (t : Table) (k : Jsonable) :
    tableLookup (tableDel t k) k = none := by
  unfold tableLookup tableDel
  cases hf : List.find? (fun p => pyKeyEq p.1 k)
      (List.filter (fun p => !(pyKeyEq p.1 k)) t) with
  | none => rfl
  | some p =>
    have h1 : pyKeyEq p.1 k = true := by
      have := List.find?_some hf
      simpa using this
    have h2 : p ∈ List.filter (fun p => !(pyKeyEq p.1 k)) t :=
      List.mem_of_find?_eq_some hf
    have h3 := (List.mem_filter.mp h2).2
    simp [h1] at h3

/-! ## Claim C9 — members are stored under their own declared name -/

/-- C9: in every lobby each member is stored under its own declared name;
the invariant holds for the empty lobby produced by `HijackLobby.__init__`
and is preserved by `add_remote`, the only mutating operation (both on
success and on failure). -/
theorem C9_members_keyed_by_own_name :
    (∀ lobby_id, memberInv (lobbyInit lobby_id)) ∧
    (∀ lobby remote, memberInv lobby → memberInv (add_remote lobby remote).2) := by
  constructor
  · intro lid p hp
    simp [lobbyInit] at hp
  · intro lobby remote hinv
    cases hn : clientName remote with
    | error e => simp only [add_remote, hn]; exact hinv
    | ok n =>
      simp only [add_remote, hn]
      by_cases hh : hashable n = false
      · rw [if_pos hh]; exact hinv
      · rw [if_neg hh]
        by_cases hdup : lobby.members.any (fun p => pyKeyEq p.1 n) = true
        · rw [if_pos hdup]; exact hinv
        · rw [if_neg hdup]
          intro p hp
          rcases List.mem_append.mp hp with h | h
          · exact hinv p h
          · have hp2 : p = (n, remote) := by simpa using h
            rw [hp2]
            exact hn

/-- Witness for C9 at a concrete lobby and connection. -/
theorem C9_members_keyed_witness :
    memberInv (add_remote (lobbyInit (.str "L")) clientA).2 :=
  C9_members_keyed_by_own_name.2 (lobbyInit (.str "L")) clientA
    (C9_members_keyed_by_own_name.1 (.str "L"))

/-! ## Claim C6 — duplicate insertion fails without mutating the lobby -/

/-- C6: inserting a connection whose name already exists fails with the
duplicate-member error and returns the membership mapping exactly as it
was; inserting a fresh name succeeds, appending the new member and keeping
all previous members. -/
theorem C6_insert_duplicate_rejected :
    ∀ lobby remote n, clientName remote = .ok n → hashable n = true →
      ((lobby.members.any (fun p => pyKeyEq p.1 n) = true →
          add_remote lobby remote = (.error .duplicateMember, lobby)) ∧
       (lobby.members.any (fun p => pyKeyEq p.1 n) = false →
          add_remote lobby remote
            = (.ok (), { lobby with members := lobby.members ++ [(n, remote)] }))) := by
  intro lobby remote n hn hh
  constructor <;> intro hdup <;> simp [add_remote, hn, hh, hdup]

/-- Witness for C6: the duplicate name `"a"` is rejected leaving the lobby
untouched, while the fresh name `"c"` is appended. -/
theorem C6_insert_duplicate_witness :
    add_remote lobbyAB clientA = (.error .duplicateMember, lobbyAB) ∧
    add_remote lobbyAB clientC
      = (.ok (), { lobbyAB with members := lobbyAB.members ++ [(.str "c", clientC)] }) :=
  ⟨(C6_insert_duplicate_rejected lobbyAB clientA (.str "a") rfl rfl).1 rfl,
   (C6_insert_duplicate_rejected lobbyAB clientC (.str "c") rfl rfl).2 rfl⟩

/-! ## Claim C10 — membership test on a connection object is always False -/

/-- C10: `HijackLobby.__contains__` with a connection object always answers
`False` — even when the connection is a member — because the final lookup
compares the object itself against the stored keys; only a name can test
positive, as the second conjunct shows for a name actually present. -/
theorem C10_contains_connection_false :
    ∀ lobby c n, clientName c = .ok n →
      lobbyContains lobby (Sum.inr c) = .ok false ∧
      ((n, c) ∈ lobby.members → hashable n = true →
        lobbyContains lobby (Sum.inl n) = .ok true) := by
  intro lobby c n hn
  constructor
  · simp [lobbyContains, hn, clientEqKey]
  · intro hmem hh
    have hany : lobby.members.any (fun p => pyKeyEq p.1 n) = true := by
      rw [List.any_eq_true]
      exact ⟨(n, c), hmem, pyKeyEq_refl n hh⟩
    simp [lobbyContains, hh, hany]

/-- Witness for C10: the member connection `"a"` itself tests negative while
its name tests positive. -/
theorem C10_contains_connection_witness :
    lobbyContains lobbyAB (Sum.inr clientA) = .ok false ∧
    lobbyContains lobbyAB (Sum.inl (.str "a")) = .ok true :=
  ⟨(C10_contains_connection_false lobbyAB clientA (.str "a") rfl).1,
   (C10_contains_connection_false lobbyAB clientA (.str "a") rfl).2 (by simp [lobbyAB]) rfl⟩

/-! ## Claim C4 — sends fail before any byte when the text holds a terminator -/

/-- C4: a payload containing the line terminator is refused before any byte
reaches the stream, and every message's send succeeds — its canonical
serialization can never contain a terminator — writing the serialized form
followed by exactly one terminator. -/
theorem C4_send_line_terminator_guard :
    (∀ written plod, '\n' ∈ plod →
      send_message_raw written plod = (.error .payloadNewline, written)) ∧
    (∀ written msg, send_message written msg
      = (.ok (), written ++ dumps msg ++ ['\n'])) := by
  constructor
  · intro w plod h
    simp [send_message_raw, h]
  · intro w m
    simp [send_message, send_message_raw, dumps_no_nl m]

/-- Witness for C4 at a concrete payload and message. -/
theorem C4_send_line_terminator_witness :
    send_message_raw [] ['x', '\n'] = (.error .payloadNewline, []) ∧
    send_message [] (.num 7) = (.ok (), [] ++ dumps (.num 7) ++ ['\n']) :=
  ⟨C4_send_line_terminator_guard.1 [] ['x', '\n'] (by decide),
   C4_send_line_terminator_guard.2 [] (.num 7)⟩

/-! ## Claim C3 — decode ∘ encode is the identity -/

/-- C3: for every well-formed message whose encoded form contains no line
terminator (which is in fact all of them), decoding the canonical encoding
yields the message back. -/
theorem C3_decode_encode_roundtrip (m : Jsonable) (hwf : wfJson m = true)
    (_hnl : '\n' ∉ dumps m) : json_loads (dumps m) = some m :=
  json_loads_dumps m hwf

/-- Witness for C3 at a concrete compound message. -/
theorem C3_decode_encode_witness :
    json_loads (dumps (.obj [("a", .num 1), ("b", .arr [.str "x", .bool true, .null])]))
      = some (.obj [("a", .num 1), ("b", .arr [.str "x", .bool true, .null])]) :=
  C3_decode_encode_roundtrip _ rfl (by decide)

/-! ## Claim C1 — cleanup is skipped on runner or close failure (code bug) -/

/-- C1 (code-bug exhibit): the `try`/`finally` around the lobby runner is
commented out in `_handle_client`, so when the injected runner raises, no
member's `close()` is ever invoked; and because the closes run in a bare
sequential loop, a failing `close()` on member `"a"` prevents member `"b"`
from ever being closed. -/
theorem C1_cleanup_skipped_on_failure :
    ((afterJoin (fun _ => true) (fun _ => .error .runnerError) (fun _ => .ok ())
        [(.str "L", lobbyAB)] (.str "L") lobbyAB).1 = .error .runnerError ∧
     ((afterJoin (fun _ => true) (fun _ => .error .runnerError) (fun _ => .ok ())
        [(.str "L", lobbyAB)] (.str "L") lobbyAB).2.2.filter evIsClosed) = []) ∧
    ((afterJoin (fun _ => true) (fun _ => .ok ())
        (fun c => match getItem c.metadata "name" with
          | .ok (.str s) => if s = "a" then .error .closeError else .ok ()
          | _ => .ok ())
        [(.str "L", lobbyAB)] (.str "L") lobbyAB).1 = .error .closeError ∧
     ((afterJoin (fun _ => true) (fun _ => .ok ())
        (fun c => match getItem c.metadata "name" with
          | .ok (.str s) => if s = "a" then .error .closeError else .ok ()
          | _ => .ok ())
        [(.str "L", lobbyAB)] (.str "L") lobbyAB).2.2.filter evIsClosed)
       = [Ev.closed (.str "a")]) :=
  ⟨⟨rfl, rfl⟩, ⟨rfl, rfl⟩⟩

/-! ## Claim C7 — read_message: None, decoded value, or malformed error -/

theorem readline_newline : ∀ s : List Char,
    ((readline s).1.getLast? = some '\n') ↔ '\n' ∈ s := by
  intro s
  induction s with
  | nil => simp [readline]
  | cons c r ih =>
    by_cases hc : c = '\n'
    · subst hc
      simp [readline]
    · simp only [readline, if_neg hc]
      rw [List.mem_cons]
      cases hp : (readline r).1 with
      | nil =>
        rw [hp] at ih
        have hr : '\n' ∉ r := by
          intro hh
          have h2 := ih.mpr hh
          simp at h2
        constructor
        · intro h
          simp only [List.getLast?_singleton, Option.some.injEq] at h
          exact absurd h hc
        · rintro (h | h)
          · exact absurd h.symm hc
          · exact absurd h hr
      | cons x xs =>
        rw [hp] at ih
        rw [List.getLast?_cons_cons, ih]
        constructor
        · exact Or.inr
        · rintro (h | h)
          · exact absurd h.symm hc
          · exact h

/-- C7 counterexample: a stream whose first full line is the message
`null` makes `read_message` return the same `None` that signals a closed
stream, although a full line was available — so `None` is *not* returned
exactly when the stream ended. -/
theorem C7_read_none_counterexample :
    read_message (dumps .null ++ ['\n']) = .ok (.null, []) ∧
    '\n' ∈ dumps .null ++ ['\n'] :=
  ⟨rfl, by decide⟩

/-- C7 as amended: `read_message` returns `None` exactly when either no
full terminator-ended line is available (end-of-input/closed) or the next
line decodes to the null message — the two are indistinguishable in Python;
otherwise a decodable line yields its decoded message and an undecodable
line propagates the malformed-message error rather than returning `None`. -/
theorem C7_read_message_trichotomy :
    ∀ stream : List Char,
      (read_message stream = .ok (.null, (readline stream).2) ↔
        ('\n' ∉ stream ∨ json_loads (readline stream).1 = some .null)) ∧
      (∀ m, '\n' ∈ stream → json_loads (readline stream).1 = some m →
        read_message stream = .ok (m, (readline stream).2)) ∧
      ('\n' ∈ stream → json_loads (readline stream).1 = none →
        read_message stream = .error .jsonDecodeError) := by
  intro stream
  by_cases hn : '\n' ∈ stream
  · have hlast : (readline stream).1.getLast? = some '\n' :=
      (readline_newline stream).mpr hn
    have hraw : read_message_raw stream = (some (readline stream).1, (readline stream).2) := by
      simp [read_message_raw, hlast]
    cases hl : json_loads (readline stream).1 with
    | some m =>
      have hrm : read_message stream = .ok (m, (readline stream).2) := by
        simp [read_message, hraw, hl]
      refine ⟨?_, ?_, ?_⟩
      · rw [hrm]
        constructor
        · intro h
          right
          simp only [Except.ok.injEq, Prod.mk.injEq] at h
          rw [h.1]
        · rintro (h | h)
          · exact absurd hn h
          · simp only [Option.some.injEq] at h
            rw [h]
      · intro m2 _ hl2
        simp only [Option.some.injEq] at hl2
        rw [← hl2]
        exact hrm
      · intro _ hl2
        exact absurd hl2 (by simp)
    | none =>
      have hrm : read_message stream = .error .jsonDecodeError := by
        simp [read_message, hraw, hl]
      refine ⟨?_, ?_, ?_⟩
      · rw [hrm]
        constructor
        · intro h
          exact absurd h (by simp)
        · rintro (h | h)
          · exact absurd hn h
          · exact absurd h (by simp)
      · intro m2 _ hl2
        exact absurd hl2 (by simp)
      · intro _ _
        exact hrm
  · have hlast : ¬(readline stream).1.getLast? = some '\n' :=
      fun h => hn ((readline_newline stream).mp h)
    have hraw : read_message_raw stream = (none, (readline stream).2) := by
      simp [read_message_raw, hlast]
    have hrm : read_message stream = .ok (.null, (readline stream).2) := by
      simp [read_message, hraw]
    refine ⟨?_, ?_, ?_⟩
    · rw [hrm]
      simp [hn]
    · intro m hm
      exact absurd hm hn
    · intro hm
      exact absurd hm hn

/-- Witness for the amended C7: a decodable line yields its message, here
the number 5. -/
theorem C7_read_message_witness :
    read_message (dumps (.num 5) ++ ['\n']) = .ok (.num 5, []) := by
  have h := (C7_read_message_trichotomy (dumps (.num 5) ++ ['\n'])).2.1 (.num 5)
    (by decide) rfl
  exact h

/-! ## Claim C5 — handshake failure leaves the server state intact -/

/-- C5 counterexample: an identity object carrying a `lobby` field but no
`name` field makes the connection's handling fail — but only after
`setdefault` has created an empty building lobby for the fresh id `"x"`,
which stays in the pending table.  So a failed handshake *can* create a
lobby as a side effect, contradicting the claim as stated. -/
theorem C5_handshake_counterexample :
    (handshakeJoin [] (dumps (.obj [("lobby", .str "x")]) ++ ['\n'])).1
      = .error .keyError ∧
    (handshakeJoin [] (dumps (.obj [("lobby", .str "x")]) ++ ['\n'])).2
      = [(.str "x", lobbyInit (.str "x"))] :=
  ⟨rfl, rfl⟩

/-- C5 as amended: whenever the first message is malformed, the stream
closes before a full line, or the decoded identity does not support both
the `name` and `lobby` accesses, the handshake-and-join phase fails; every
lobby already in the pending table is left exactly as it was (no member
added, removed or replaced anywhere), and the only possible new table entry
is a freshly created lobby with an empty membership. -/
theorem C5_handshake_failure_isolated :
    ∀ (table : Table) (stream : List Char),
      (∀ md rest, read_message stream = .ok (md, rest) → identOk md = false) →
      (∃ e, (handshakeJoin table stream).1 = .error e) ∧
      (∃ ext, (handshakeJoin table stream).2 = List.append table ext ∧
        ∀ p ∈ ext, p.2.members = []) := by
  intro table stream hbad
  cases hr : read_message stream with
  | error e =>
    refine ⟨⟨e, ?_⟩, ⟨[], ?_, ?_⟩⟩
    · simp [handshakeJoin, hr]
    · simp [handshakeJoin, hr, List.append_nil]
    · intro p hp; simp at hp
  | ok q =>
    obtain ⟨md, rest⟩ := q
    have hbad2 := hbad md rest hr
    have hcl : clientLobby ⟨md, none, []⟩ = getItem md "lobby" := rfl
    cases hl : getItem md "lobby" with
    | error e =>
      refine ⟨⟨e, ?_⟩, ⟨[], ?_, ?_⟩⟩
      · simp [handshakeJoin, hr, hcl, hl]
      · simp [handshakeJoin, hr, hcl, hl, List.append_nil]
      · intro p hp; simp at hp
    | ok lid =>
      have hname : ∃ e, getItem md "name" = .error e := by
        unfold identOk at hbad2
        cases hn : getItem md "name" with
        | error e => exact ⟨e, rfl⟩
        | ok _ => rw [hn, hl] at hbad2; simp at hbad2
      obtain ⟨en, hn⟩ := hname
      have hcn : clientName ⟨md, none, []⟩ = getItem md "name" := rfl
      by_cases hh : hashable lid = false
      · refine ⟨⟨.typeError, ?_⟩, ⟨[], ?_, ?_⟩⟩
        · simp [handshakeJoin, hr, hcl, hl, hh]
        · simp [handshakeJoin, hr, hcl, hl, hh, List.append_nil]
        · intro p hp; simp at hp
      · cases hsd : tableLookup table lid with
        | some l =>
          refine ⟨⟨en, ?_⟩, ⟨[], ?_, ?_⟩⟩
          · simp [handshakeJoin, hr, hcl, hl, hh, setdefault, hsd, add_remote, hcn, hn]
          · simp [handshakeJoin, hr, hcl, hl, hh, setdefault, hsd, add_remote, hcn, hn,
              List.append_nil]
          · intro p hp; simp at hp
        | none =>
          refine ⟨⟨en, ?_⟩, ⟨[(lid, lobbyInit lid)], ?_, ?_⟩⟩
          · simp [handshakeJoin, hr, hcl, hl, hh, setdefault, hsd, add_remote, hcn, hn]
          · simp [handshakeJoin, hr, hcl, hl, hh, setdefault, hsd, add_remote, hcn, hn,
              List.append_eq]
          · intro p hp
            simp at hp
            rw [hp]
            rfl

/-- Witness for the amended C5 at the concrete name-less identity. -/
theorem C5_handshake_failure_witness :
    (∃ e, (handshakeJoin [] (dumps (.obj [("lobby", .str "x")]) ++ ['\n'])).1
      = .error e) ∧
    (∃ ext, (handshakeJoin [] (dumps (.obj [("lobby", .str "x")]) ++ ['\n'])).2
      = List.append [] ext ∧ ∀ p ∈ ext, p.2.members = []) := by
  refine C5_handshake_failure_isolated [] _ ?_
  intro md rest h
  rw [show read_message (dumps (.obj [("lobby", .str "x")]) ++ ['\n'])
      = .ok (.obj [("lobby", .str "x")], []) from rfl] at h
  simp only [Except.ok.injEq, Prod.mk.injEq] at h
  rw [← h.1]
  rfl

/-! ## Claim C2 — removal from the pending table precedes the broadcast -/

/-- C2: whenever the completion predicate holds for a building lobby, the
handling routine removes the lobby id from the pending table strictly
before any roster broadcast send (the removal is the first observable
event and every send comes later); afterwards the id no longer resolves in
the table, so a connection naming the same lobby id is inserted into a
freshly created building lobby containing only itself — never the
completed one. -/
theorem C2_removal_linearized_before_broadcast :
    ∀ (check : HijackLobby → Bool) (runner : HijackLobby → Except PyError Unit)
      (closeF : HijackClient → Except PyError Unit) (table : Table)
      (lid : Jsonable) (lobby : HijackLobby),
      check lobby = true →
      ((afterJoin check runner closeF table lid lobby).2.2.head?
          = some (.removedPending lid) ∧
       (∀ j e, (afterJoin check runner closeF table lid lobby).2.2.get? j = some e →
          evIsSent e = true → 0 < j) ∧
       tableLookup (afterJoin check runner closeF table lid lobby).2.1 lid = none ∧
       (∀ remote2 n2, clientName remote2 = .ok n2 → hashable n2 = true →
         (add_remote (setdefault (afterJoin check runner closeF table lid lobby).2.1
             lid (lobbyInit lid)).1 remote2).2.members = [(n2, remote2)])) := by
  intro check runner closeF table lid lobby hc
  have hstruct : ∃ evs, (afterJoin check runner closeF table lid lobby).2.2
      = .removedPending lid :: evs ∧
      (afterJoin check runner closeF table lid lobby).2.1 = tableDel table lid := by
    unfold afterJoin
    rw [if_pos hc]
    exact ⟨(runPhase runner closeF lobby.lobby_id
      (broadcastRoster lobby.members lobby.members)).2, rfl, rfl⟩
  obtain ⟨evs, hevs, htab⟩ := hstruct
  refine ⟨?_, ?_, ?_, ?_⟩
  · rw [hevs]
    rfl
  · intro j e hj hs
    cases j with
    | zero =>
      rw [hevs] at hj
      simp only [List.get?, Option.some.injEq] at hj
      rw [← hj] at hs
      simp [evIsSent] at hs
    | succ j2 => omega
  · rw [htab]
    exact tableLookup_del_self table lid
  · intro r2 n2 hn2 hh2
    rw [htab]
    simp [setdefault, tableLookup_del_self, add_remote, hn2, hh2, lobbyInit]

/-- Witness for C2 at the concrete two-member lobby and a later connection
`"c"` naming the same lobby id. -/
theorem C2_removal_linearized_witness :
    ((afterJoin (fun _ => true) (fun _ => .ok ()) (fun _ => .ok ())
        [(.str "L", lobbyAB)] (.str "L") lobbyAB).2.2.head?
      = some (.removedPending (.str "L"))) ∧
    (add_remote (setdefault (afterJoin (fun _ => true) (fun _ => .ok ())
        (fun _ => .ok ()) [(.str "L", lobbyAB)] (.str "L") lobbyAB).2.1
        (.str "L") (lobbyInit (.str "L"))).1 clientC).2.members
      = [(.str "c", clientC)] :=
  ⟨(C2_removal_linearized_before_broadcast (fun _ => true) (fun _ => .ok ())
      (fun _ => .ok ()) [(.str "L", lobbyAB)] (.str "L") lobbyAB rfl).1,
   (C2_removal_linearized_before_broadcast (fun _ => true) (fun _ => .ok ())
      (fun _ => .ok ()) [(.str "L", lobbyAB)] (.str "L") lobbyAB rfl).2.2.2
      clientC (.str "c") rfl rfl⟩

/-! ## Claim C8 — one exact roster message per member, all before the runner -/

theorem get_other_members_ok :
    ∀ (l : List (Jsonable × HijackClient)) (excl : Jsonable),
      (∀ p ∈ l, clientName p.2 = .ok p.1) →
      get_other_members l excl
        = .ok ((l.filter (fun p => !(pyKeyEq p.1 excl))).map Prod.snd) := by
  intro l excl hinv
  induction l with
  | nil => rfl
  | cons q t ih =>
    obtain ⟨k, r⟩ := q
    have hk : clientName r = .ok k := hinv (k, r) (by simp)
    have iht := ih (fun p hp => hinv p (by simp [hp]))
    by_cases hq : pyKeyEq k excl = true
    · simp [get_other_members, hk, iht, List.filter_cons, hq]
    · simp [get_other_members, hk, iht, List.filter_cons, hq]

theorem memberNames_ok :
    ∀ (l : List (Jsonable × HijackClient)),
      (∀ p ∈ l, clientName p.2 = .ok p.1) →
      memberNames (l.map Prod.snd) = .ok (l.map Prod.fst) := by
  intro l hinv
  induction l with
  | nil => rfl
  | cons q t ih =>
    obtain ⟨k, r⟩ := q
    simp only [List.map_cons, memberNames, hinv (k, r) (by simp),
      ih (fun p hp => hinv p (by simp [hp]))]

theorem map_fst_filter_key (l : List (Jsonable × HijackClient)) (f : Jsonable → Bool) :
    ((l.filter (fun p => f p.1)).map Prod.fst) = (l.map Prod.fst).filter f := by
  induction l with
  | nil => rfl
  | cons q t ih =>
    by_cases hq : f q.1 = true <;> simp [List.filter_cons, hq, ih]

theorem send_starting_ok (c : HijackClient) (others : List Jsonable)
    (h : c.startingMetadata = none) :
    send_starting_metadata c others
      = .ok (⟨c.metadata, some (startingMsg others),
          c.written ++ dumps (startingMsg others) ++ ['\n']⟩,
        startingMsg others) := by
  simp [send_starting_metadata, h, send_message, send_message_raw,
    dumps_no_nl (startingMsg others)]

theorem broadcastOne_ok (members0 : List (Jsonable × HijackClient))
    (hinv0 : ∀ p ∈ members0, clientName p.2 = .ok p.1)
    (nm : Jsonable) (r : HijackClient) (hr : clientName r = .ok nm)
    (hsm : r.startingMetadata = none) :
    broadcastOne members0 r = .ok
      (⟨r.metadata, some (rosterMsgFor members0 nm),
          r.written ++ dumps (rosterMsgFor members0 nm) ++ ['\n']⟩,
        rosterMsgFor members0 nm) := by
  have h1 := get_other_members_ok members0 nm hinv0
  have h2 := memberNames_ok (members0.filter (fun p => !(pyKeyEq p.1 nm)))
    (fun p hp => hinv0 p (List.mem_of_mem_filter hp))
  simp only [broadcastOne, hr, h1, h2,
    map_fst_filter_key members0 (fun k => !(pyKeyEq k nm))]
  exact send_starting_ok r _ hsm

theorem broadcastRoster_cons (members0 : List (Jsonable × HijackClient))
    (nm : Jsonable) (r : HijackClient) (t : List (Jsonable × HijackClient)) :
    broadcastRoster members0 ((nm, r) :: t)
      = match broadcastOne members0 r with
        | .error e => (.error e, [])
        | .ok (r2, md) =>
          match broadcastRoster members0 t with
          | (.error e, evs) => (.error e, .sentRoster nm md :: evs)
          | (.ok rest2, evs) => (.ok ((nm, r2) :: rest2), .sentRoster nm md :: evs) := rfl

theorem broadcastRoster_ok (members0 : List (Jsonable × HijackClient))
    (hinv0 : ∀ p ∈ members0, clientName p.2 = .ok p.1) :
    ∀ suffix, (∀ p ∈ suffix, clientName p.2 = .ok p.1 ∧ p.2.startingMetadata = none) →
      (broadcastRoster members0 suffix).2
        = suffix.map (fun p => Ev.sentRoster p.1 (rosterMsgFor members0 p.1)) ∧
      ∃ ms, (broadcastRoster members0 suffix).1 = .ok ms := by
  intro suffix
  induction suffix with
  | nil => intro _; exact ⟨rfl, [], rfl⟩
  | cons q t ih =>
    intro hs
    obtain ⟨k, r⟩ := q
    obtain ⟨hk, hsm⟩ := hs (k, r) (by simp)
    obtain ⟨iht1, ms, iht2⟩ := ih (fun p hp => hs p (by simp [hp]))
    have hb := broadcastOne_ok members0 hinv0 k r hk hsm
    cases hbt : broadcastRoster members0 t with
    | mk res evs =>
      rw [hbt] at iht1 iht2
      simp only at iht1 iht2
      subst iht1
      subst iht2
      rw [broadcastRoster_cons, hb, hbt]
      exact ⟨by simp, ⟨(k, ⟨r.metadata, some (rosterMsgFor members0 k),
        r.written ++ dumps (rosterMsgFor members0 k) ++ ['\n']⟩) :: ms, rfl⟩⟩

theorem closeAll_events_not_sent (closeF : HijackClient → Except PyError Unit) :
    ∀ l e, e ∈ (closeAll closeF l).2 → evIsSent e = false := by
  intro l
  induction l with
  | nil => intro e he; simp [closeAll] at he
  | cons q t ih =>
    obtain ⟨nm, r⟩ := q
    intro e he
    cases hcf : closeF r with
    | error er =>
      simp only [closeAll, hcf, List.mem_singleton] at he
      rw [he]
      rfl
    | ok u =>
      simp only [closeAll, hcf, List.mem_cons] at he
      rcases he with rfl | he2
      · rfl
      · exact ih e he2

/-- C8: when a lobby completes, the event trace splits around the single
runner invocation: everything before it contains, as its roster sends,
exactly one starting message per member — the object
`{"state": "starting", "others": [...]}` whose `others` lists precisely the
other members' names in order — and nothing after the runner invocation is
a roster send, i.e. every member's send is dispatched and completed before
the injected lobby-runner runs. -/
theorem C8_roster_broadcast_before_runner :
    ∀ (check : HijackLobby → Bool) (runner : HijackLobby → Except PyError Unit)
      (closeF : HijackClient → Except PyError Unit) (table : Table)
      (lid : Jsonable) (lobby : HijackLobby),
      check lobby = true →
      memberInv lobby →
      (∀ p ∈ lobby.members, p.2.startingMetadata = none) →
      ∃ pre post, (afterJoin check runner closeF table lid lobby).2.2
          = pre ++ Ev.ranLobby :: post
        ∧ pre.filter evIsSent
          = lobby.members.map (fun p => Ev.sentRoster p.1 (rosterMsgFor lobby.members p.1))
        ∧ (∀ e ∈ post, evIsSent e = false) := by
  intro check runner closeF table lid lobby hc hinv hsm
  obtain ⟨hevs, ms, hok⟩ := broadcastRoster_ok lobby.members hinv lobby.members
    (fun p hp => ⟨hinv p hp, hsm p hp⟩)
  cases hbt : broadcastRoster lobby.members lobby.members with
  | mk res evs =>
    rw [hbt] at hevs hok
    simp only at hevs hok
    subst hok
    have hfil : evs.filter evIsSent = evs := by
      rw [hevs]
      apply List.filter_eq_self.mpr
      intro e he
      obtain ⟨p, hp, rfl⟩ := List.mem_map.mp he
      rfl
    cases hr : runner ⟨lobby.lobby_id, ms⟩ with
    | error e =>
      refine ⟨.removedPending lid :: evs, [], ?_, ?_, ?_⟩
      · unfold afterJoin
        rw [if_pos hc, hbt]
        simp only [runPhase, hr]
        simp
      · have h1 : (Ev.removedPending lid :: evs).filter evIsSent
            = evs.filter evIsSent := by simp [evIsSent]
        rw [h1, hfil]
        exact hevs
      · intro e2 he2
        simp at he2
    | ok u =>
      refine ⟨.removedPending lid :: evs, (closeAll closeF ms).2, ?_, ?_, ?_⟩
      · unfold afterJoin
        rw [if_pos hc, hbt]
        simp only [runPhase, hr]
        simp
      · have h1 : (Ev.removedPending lid :: evs).filter evIsSent
            = evs.filter evIsSent := by simp [evIsSent]
        rw [h1, hfil]
        exact hevs
      · intro e2 he2
        exact closeAll_events_not_sent closeF ms e2 he2

/-- Witness for C8 at the concrete two-member lobby. -/
theorem C8_roster_broadcast_witness :
    ∃ pre post, (afterJoin (fun _ => true) (fun _ => .ok ()) (fun _ => .ok ())
        [(.str "L", lobbyAB)] (.str "L") lobbyAB).2.2
      = pre ++ Ev.ranLobby :: post
    ∧ pre.filter evIsSent
      = lobbyAB.members.map (fun p => Ev.sentRoster p.1 (rosterMsgFor lobbyAB.members p.1))
    ∧ (∀ e ∈ post, evIsSent e = false) := by
  refine C8_roster_broadcast_before_runner (fun _ => true) (fun _ => .ok ())
    (fun _ => .ok ()) [(.str "L", lobbyAB)] (.str "L") lobbyAB rfl ?_ ?_
  · intro p hp
    simp only [lobbyAB, List.mem_cons, List.mem_singleton] at hp
    rcases hp with rfl | rfl | h
    · rfl
    · rfl
    · simp at h
  · intro p hp
    simp only [lobbyAB, List.mem_cons, List.mem_singleton] at hp
    rcases hp with rfl | rfl | h
    · rfl
    · rfl
    · simp at h
